import Mathlib

/-!
# Face Blur Studio — verification of the region-consolidation and pixel-transform engine

Shallow embedding of the TypeScript sources of the repository
(`src/pages/Index.tsx`, `src/components/FaceDetection.tsx`,
`src/components/ImageProcessor.tsx`) and proofs about it.

Numeric model: JavaScript numbers are modelled by exact rationals `ℚ`.
At the magnitudes occurring here (8-bit channel data, block sums below
`2^17`, window sums below `2^17`) IEEE double arithmetic in the source is
exact, or (for the divisions feeding `Math.round` and `Uint8ClampedArray`
stores) far enough from rounding boundaries that the exact-rational model
agrees with the float computation.

JavaScript `Math.sqrt`, `Math.atan2`, `Math.cos` and `Math.sin` are
transcendental; they are modelled as an abstract environment `JsMath` of
rational functions passed to the definitions that use them (the claims
under study never depend on their values; for the trigonometric ring of
synthetic contour landmarks the angle is represented in turns).
`Array.prototype.sort` (ES2019: stable) with key comparators is modelled
by the stable insertion sort `insSortK` below.
-/

/-- Abstract environment for the JavaScript math builtins used by the
sources. `cosT`/`sinT` take an angle in turns (fraction of a full circle),
`sqrtQ` models `Math.sqrt`, `atan2Q dy dx` models `Math.atan2(dy, dx)`. -/
structure JsMath where
  cosT : ℚ → ℚ
  sinT : ℚ → ℚ
  sqrtQ : ℚ → ℚ
  atan2Q : ℚ → ℚ → ℚ

/-- Stable insertion of `x` into `l`, keyed by `k`: `x` goes in front of
the first element whose key is `≥ k x` (so `x`, which occurs earlier in
the input, precedes later elements with an equal key). This models a
stable JavaScript `sort` with comparator `(a, b) => k(a) - k(b)`. -/
def insertK {α : Type} (k : α → ℚ) (x : α) : List α → List α
  | [] => [x]
  | y :: ys => if k x ≤ k y then x :: y :: ys else y :: insertK k x ys

/-- Stable sort ascending by the key `k` (model of JS stable `sort`). -/
def insSortK {α : Type} (k : α → ℚ) : List α → List α
  | [] => []
  | x :: xs => insertK k x (insSortK k xs)

/-! ## Geometry utilities and NMS (`src/pages/Index.tsx`) -/

/-- A landmark point (`{x, y}` in image space). -/
structure Point where
  x : ℚ
  y : ℚ
deriving DecidableEq, Repr

/-- `BoxLike` from `src/pages/Index.tsx`. -/
structure BoxLike where
  x : ℚ
  y : ℚ
  width : ℚ
  height : ℚ
  confidence : ℚ
  landmarks : Option (List Point) := none
deriving DecidableEq, Repr

/-- `iou` from `src/pages/Index.tsx` (lines 185–197): intersection over
union of two boxes, `0` when the union is not positive. -/
def iou (a b : BoxLike) : ℚ :=
  let x1 := max a.x b.x
  let y1 := max a.y b.y
  let x2 := min (a.x + a.width) (b.x + b.width)
  let y2 := min (a.y + a.height) (b.y + b.height)
  let interW := max 0 (x2 - x1)
  let interH := max 0 (y2 - y1)
  let intersection := interW * interH
  let union := a.width * a.height + b.width * b.height - intersection
  if 0 < union then intersection / union else 0

/-- `nms` from `src/pages/Index.tsx` (lines 199–215): sort a copy of the
input descending by confidence (stable, modelled by `insSortK` on the
negated confidence), then greedily keep a candidate unless it overlaps an
already-kept box with IoU above the threshold. -/
def nms (boxes : List BoxLike) (iouThreshold : ℚ) : List BoxLike :=
  let sorted := insSortK (fun b => -b.confidence) boxes
  sorted.foldl
    (fun kept cand =>
      if ∀ k ∈ kept, iou cand k ≤ iouThreshold then kept ++ [cand] else kept)
    []

/-! ## Face detection (`src/components/FaceDetection.tsx`, BlazeFace variant, lines 1–221)

The detector (`detector.estimateFaces`) is an external capability; it is
modelled as an oracle `det : Query → Except Unit (List RawPred)` where a
`Query` records the canvas handed to it (origin and size in the canvas's
own coordinate system: the native pass queries the full image, the
second pass queries the downscaled `640 × targetHeight` copy) and
`Except.error` models a thrown exception anywhere in the `try` block. -/

/-- `DetectedFace` from `src/components/FaceDetection.tsx`. -/
structure DetectedFace where
  x : ℚ
  y : ℚ
  width : ℚ
  height : ℚ
  confidence : ℚ
  landmarks : Option (List Point) := none
deriving DecidableEq, Repr

/-- The `{x, y, width, height}` records passed to the landmark
generators. -/
structure FaceRect where
  x : ℚ
  y : ℚ
  width : ℚ
  height : ℚ
deriving DecidableEq, Repr

/-- A raw BlazeFace prediction: `topLeft = (x1, y1)`,
`bottomRight = (x2, y2)`, `probability` (`none` models a
non-array `probability`, read as the default `0.9`), optional landmark
points. -/
structure RawPred where
  x1 : ℚ
  y1 : ℚ
  x2 : ℚ
  y2 : ℚ
  probability : Option ℚ
  landmarks : Option (List Point)
deriving DecidableEq, Repr

/-- The canvas a detector call runs on: origin offset into the native
image and the canvas size. The native pass uses `⟨0, 0, W, H⟩`; the
downscale pass uses `⟨0, 0, 640, targetHeight⟩`. -/
structure Query where
  x : ℚ
  y : ℚ
  w : ℚ
  h : ℚ
deriving DecidableEq, Repr

/-- `generateDetailedLandmarks` from `src/components/FaceDetection.tsx`
(lines 171–221): two eyes, nose bridge and tip, three mouth points, two
eyebrow points, a chin point, then a 20-point elliptical contour ring.
The ring angle `(i/20)·2π − π/2` is represented in turns as `i/20 − 1/4`
and fed to the abstract `cosT`/`sinT` of the `JsMath` environment. -/
def generateDetailedLandmarks (env : JsMath) (f : FaceRect) : List Point :=
  let centerX := f.x + f.width * (1/2)
  let centerY := f.y + f.height * (1/2)
  [⟨f.x + f.width * (3/10), f.y + f.height * (35/100)⟩,
   ⟨f.x + f.width * (7/10), f.y + f.height * (35/100)⟩,
   ⟨centerX, f.y + f.height * (45/100)⟩,
   ⟨centerX, f.y + f.height * (55/100)⟩,
   ⟨f.x + f.width * (4/10), f.y + f.height * (75/100)⟩,
   ⟨centerX, f.y + f.height * (75/100)⟩,
   ⟨f.x + f.width * (6/10), f.y + f.height * (75/100)⟩,
   ⟨f.x + f.width * (25/100), f.y + f.height * (25/100)⟩,
   ⟨f.x + f.width * (75/100), f.y + f.height * (25/100)⟩,
   ⟨centerX, f.y + f.height * (9/10)⟩] ++
  (List.range 20).map (fun i =>
    let angle : ℚ := (i : ℚ) / 20 - 1/4
    ⟨centerX + env.cosT angle * (f.width * (45/100)),
     centerY + env.sinT angle * (f.height * (48/100))⟩)

/-- The per-prediction processing of `detectFaces`
(`src/components/FaceDetection.tsx`, lines 77–129): scale raw
coordinates by `(sx, sy)`, drop predictions whose scaled width or height
is below 20, clamp `x`/`y` at 0 and `width`/`height` by the image edge,
default the confidence to `0.9`, scale provided landmarks or synthesize
them. Returns `none` exactly when the prediction is skipped. -/
def processPred (env : JsMath) (W H sx sy : ℚ) (p : RawPred) : Option DetectedFace :=
  let x1 := p.x1 * sx
  let y1 := p.y1 * sy
  let x2 := p.x2 * sx
  let y2 := p.y2 * sy
  let width := x2 - x1
  let height := y2 - y1
  if width < 20 ∨ height < 20 then none
  else
    let landmarks : List Point :=
      match p.landmarks with
      | some ls => ls.map (fun pt => ⟨pt.x * sx, pt.y * sy⟩)
      | none => generateDetailedLandmarks env ⟨x1, y1, width, height⟩
    some { x := max 0 x1, y := max 0 y1,
           width := min (W - x1) width, height := min (H - y1) height,
           confidence := p.probability.getD (9/10),
           landmarks := some landmarks }

/-- The full-image canvas of the native detection pass. -/
def nativeQuery (W H : ℚ) : Query := ⟨0, 0, W, H⟩

/-- `targetHeight = Math.round(naturalHeight * (640 / naturalWidth))`
(`src/components/FaceDetection.tsx`, lines 54–56). -/
def targetHeight (W H : ℚ) : ℚ := ((round (H * (640 / W)) : ℤ) : ℚ)

/-- The downscaled canvas of the second detection pass. -/
def downQuery (W H : ℚ) : Query := ⟨0, 0, 640, targetHeight W H⟩

/-- The two synthetic fallback regions built in the `catch` branch of
`detectFaces` (`src/components/FaceDetection.tsx`, lines 133–159),
landmarks synthesized by `generateDetailedLandmarks`. -/
def fallbackFaces (env : JsMath) (W H : ℚ) : List DetectedFace :=
  [{ x := W * (25/100), y := H * (15/100),
     width := W * (2/10), height := H * (3/10), confidence := 85/100,
     landmarks := some (generateDetailedLandmarks env
       ⟨W * (25/100), H * (15/100), W * (2/10), H * (3/10)⟩) },
   { x := W * (55/100), y := H * (2/10),
     width := W * (18/100), height := H * (25/100), confidence := 78/100,
     landmarks := some (generateDetailedLandmarks env
       ⟨W * (55/100), H * (2/10), W * (18/100), H * (25/100)⟩) }]

/-- `detectFaces` from `src/components/FaceDetection.tsx` (lines 37–160),
returning both the list of detector calls made (in order) and the
produced faces. Pass 1 runs on the native image. If it yields ≤ 1
prediction and `naturalWidth > 640`, pass 2 runs on the 640-wide
downscaled copy and is adopted iff it yields strictly more predictions,
with coordinates rescaled by `(W/640, H/targetHeight)`. Any detector
error falls back to `fallbackFaces`. -/
def detectFacesRun (env : JsMath) (det : Query → Except Unit (List RawPred))
    (W H : ℚ) : List Query × List DetectedFace :=
  let nq := nativeQuery W H
  match det nq with
  | .error _ => ([nq], fallbackFaces env W H)
  | .ok p1 =>
    if p1.length ≤ 1 ∧ 640 < W then
      let dq := downQuery W H
      match det dq with
      | .error _ => ([nq, dq], fallbackFaces env W H)
      | .ok p2 =>
        if p1.length < p2.length then
          ([nq, dq], p2.filterMap
            (processPred env W H (W / 640) (H / targetHeight W H)))
        else ([nq, dq], p1.filterMap (processPred env W H 1 1))
    else ([nq], p1.filterMap (processPred env W H 1 1))

/-- The faces returned by `detectFaces`. -/
def detectFaces (env : JsMath) (det : Query → Except Unit (List RawPred))
    (W H : ℚ) : List DetectedFace :=
  (detectFacesRun env det W H).2

/-- The detector calls made by `detectFaces`, in order. -/
def detectQueries (env : JsMath) (det : Query → Except Unit (List RawPred))
    (W H : ℚ) : List Query :=
  (detectFacesRun env det W H).1

/-- The claim of C10, rendered over the oracle model (the spec names no
tile size, so it is existentially quantified): there is a fixed tile
size `T` such that whenever the passes leave at most one region, the
detector is run on the tiles — in particular on the origin tile
`⟨0, 0, min T W, min T H⟩`. This is a necessary condition of the claim:
any partition of the image into overlapping square tiles of side `T`
contains the origin tile, and running the detector "on every tile" makes
that tile one of the issued queries. -/
def tiledPassClaim : Prop :=
  ∃ T : ℕ, 0 < T ∧
    ∀ (env : JsMath) (det : Query → Except Unit (List RawPred)) (W H : ℚ),
      (∃ p1, det (nativeQuery W H) = .ok p1) →
      (detectFaces env det W H).length ≤ 1 →
      (⟨0, 0, min (T : ℚ) W, min (T : ℚ) H⟩ : Query) ∈ detectQueries env det W H

/-- A `JsMath` environment with all transcendental functions zero; used
for concrete evaluations that do not depend on them. -/
def envZ : JsMath := ⟨fun _ => 0, fun _ => 0, fun _ => 0, fun _ _ => 0⟩

/-- Concrete prediction whose raw top-left x is negative (`-50`): the
box `(-50, 10) – (100, 60)` on a 100×100 image. -/
def predC7 : RawPred := ⟨-50, 10, 100, 60, some (9/10), some []⟩

/-- Detector returning `predC7` on the native 100×100 pass. -/
def detC7 : Query → Except Unit (List RawPred) :=
  fun q => if q = nativeQuery 100 100 then .ok [predC7] else .ok []

/-- Concrete prediction used by the C9 counterexample (in downscaled
canvas coordinates). -/
def predC9 : RawPred := ⟨0, 0, 128, 128, some (9/10), some []⟩

/-- Detector that finds nothing at native resolution of a 500×2000 image
but finds `predC9` on the downscaled copy. -/
def detC9 : Query → Except Unit (List RawPred) :=
  fun q => if q = downQuery 500 2000 then .ok [predC9] else .ok []

/-- Modelled from the spec for the C9 counterexample: identical to
`detectFaces` except that the second-pass trigger tests the image's
larger dimension against the 640 cutover, as the claim states, instead
of the width alone as the code does. -/
def detectFacesClaimC9 (env : JsMath) (det : Query → Except Unit (List RawPred))
    (W H : ℚ) : List DetectedFace :=
  let nq := nativeQuery W H
  match det nq with
  | .error _ => fallbackFaces env W H
  | .ok p1 =>
    if p1.length ≤ 1 ∧ 640 < max W H then
      match det (downQuery W H) with
      | .error _ => fallbackFaces env W H
      | .ok p2 =>
        if p1.length < p2.length then
          p2.filterMap (processPred env W H (W / 640) (H / targetHeight W H))
        else p1.filterMap (processPred env W H 1 1)
    else p1.filterMap (processPred env W H 1 1)

/-- Detector that always throws. -/
def detErr : Query → Except Unit (List RawPred) := fun _ => .error ()

/-- Detector that always succeeds with zero faces. -/
def detNil : Query → Except Unit (List RawPred) := fun _ => .ok []

/-- Detector that succeeds (with zero faces) at native resolution of an
800×600 image and throws on the downscale pass. -/
def detMixC6 : Query → Except Unit (List RawPred) :=
  fun q => if q = nativeQuery 800 600 then .ok [] else .error ()

/-- Detector finding nothing at native 1000×1000 resolution and
`predC9` on any other canvas (used to exercise second-pass adoption). -/
def detC9W : Query → Except Unit (List RawPred) :=
  fun q => if q = nativeQuery 1000 1000 then .ok [] else .ok [predC9]

/-! ## Landmark region resolver and the pixelation rectangle
(`src/components/ImageProcessor.tsx`) -/

/-- The record returned by `getEyeRegionBounds`. -/
structure EyeRegion where
  x : ℚ
  y : ℚ
  width : ℚ
  height : ℚ
  angle : ℚ
deriving DecidableEq, Repr

/-- `getEyeRegionBounds` from `src/components/ImageProcessor.tsx`
(lines 280–310): with ≥ 2 landmarks, indices 0/1 are the eye centers;
`eyeDistance` is their Euclidean distance (`Math.sqrt` modelled by the
environment's `sqrtQ`), `eyePadding = 0.4·eyeDistance`; the box runs
from `min(eye x) − padding` over a width of `|Δx| + 2·padding`, vertical
band of height `padding` centred on the eye midline, with angle
`atan2(Δy, Δx)`. Otherwise a proportional fallback band. -/
def getEyeRegionBounds (env : JsMath) (face : DetectedFace) : EyeRegion :=
  match face.landmarks with
  | some (leftEye :: rightEye :: _) =>
    let eyeDistance :=
      env.sqrtQ ((rightEye.x - leftEye.x) ^ 2 + (rightEye.y - leftEye.y) ^ 2)
    let eyePadding := eyeDistance * (4/10)
    let centerY := (leftEye.y + rightEye.y) / 2
    { x := min leftEye.x rightEye.x - eyePadding,
      y := centerY - eyePadding * (1/2),
      width := |rightEye.x - leftEye.x| + eyePadding * 2,
      height := eyePadding,
      angle := env.atan2Q (rightEye.y - leftEye.y) (rightEye.x - leftEye.x) }
  | _ =>
    { x := face.x + face.width * (15/100),
      y := face.y + face.height * (25/100),
      width := face.width * (7/10),
      height := face.height * (3/10),
      angle := 0 }

/-- Modelled from the spec's words for claim C8: the sub-region as the
claim describes it — centered on the eye midpoint with its long axis
spanning the Euclidean eye-to-eye distance plus `0.4·distance` padding
on both ends, height equal to the padding, tilt `atan2(dy, dx)`; the
fallback a horizontal band of FULL region width starting at 25% of the
region height and spanning 30% of it (the code's own offsets, inside the
claim's 20–35% / 25–40% ranges), zero tilt. -/
def getEyeRegionBoundsClaim (env : JsMath) (face : DetectedFace) : EyeRegion :=
  match face.landmarks with
  | some (leftEye :: rightEye :: _) =>
    let d := env.sqrtQ ((rightEye.x - leftEye.x) ^ 2 + (rightEye.y - leftEye.y) ^ 2)
    let pad := d * (4/10)
    { x := (leftEye.x + rightEye.x) / 2 - (d + pad * 2) / 2,
      y := (leftEye.y + rightEye.y) / 2 - pad / 2,
      width := d + pad * 2,
      height := pad,
      angle := env.atan2Q (rightEye.y - leftEye.y) (rightEye.x - leftEye.x) }
  | _ =>
    { x := face.x,
      y := face.y + face.height * (25/100),
      width := face.width,
      height := face.height * (3/10),
      angle := 0 }

/-- Environment whose `sqrtQ` agrees with the real square root at the
two arguments where the demonstrations below evaluate it
(`sqrtQ 100 = 10`, `sqrtQ 25 = 5`); the other functions are zero. -/
def envDemo : JsMath :=
  ⟨fun _ => 0, fun _ => 0,
   fun q => if q = 100 then 10 else if q = 25 then 5 else 0,
   fun _ _ => 0⟩

/-- Face with tilted eyes at `(0,0)` and `(3,4)`: Euclidean distance 5,
horizontal separation 3. -/
def faceTilted : DetectedFace := ⟨0, 0, 20, 20, 9/10, some [⟨0, 0⟩, ⟨3, 4⟩]⟩

/-- Face without landmarks. -/
def faceNoLm : DetectedFace := ⟨0, 0, 10, 10, 9/10, none⟩

/-- Face whose eye landmarks sit near the left image edge: eyes at
`(1,10)` and `(11,10)` (distance 10). -/
def faceEdge : DetectedFace := ⟨0, 0, 20, 20, 9/10, some [⟨1, 10⟩, ⟨11, 10⟩]⟩

/-- An integer rectangle of canvas coordinates. -/
structure IRect where
  x : ℤ
  y : ℤ
  w : ℤ
  h : ℤ
deriving DecidableEq, Repr

/-- The integer rectangle `pixelateRegion` derives from its arguments
(`src/components/ImageProcessor.tsx`, lines 106–110): `Math.round` on
each component — rounding only, with no clamping. JS
`Math.round q = ⌊q + 1/2⌋`, which is Mathlib's `round`. -/
def pixelateRect (x y w h : ℚ) : IRect := ⟨round x, round y, round w, round h⟩

/-- The canvas pixels `pixelateRegion` touches:
`ctx.getImageData(x, y, w, h)` reads, and `ctx.putImageData(…, x, y)`
writes, the rectangle `[x, x+w) × [y, y+h)` of canvas coordinates. The
in-loop index guards (`idx >= 0 && idx + 3 < data.length`) bound
accesses within the returned local array only, not within the canvas. -/
def rectReads (r : IRect) : List (ℤ × ℤ) :=
  (List.range r.h.toNat).flatMap
    (fun j => (List.range r.w.toNat).map (fun i => (r.x + i, r.y + j)))

/-- A canvas coordinate lies inside the buffer `[0, W) × [0, H)`. -/
def inBounds (W H : ℤ) (p : ℤ × ℤ) : Prop :=
  0 ≤ p.1 ∧ p.1 < W ∧ 0 ≤ p.2 ∧ p.2 < H

/-- The rectangle pixelated by `pixelateEyeRegionPrecise`
(`src/components/ImageProcessor.tsx`, lines 570–579): the eye region
bounds handed straight to `pixelateRegion`. -/
def pixelateEyeRect (env : JsMath) (face : DetectedFace) : IRect :=
  let er := getEyeRegionBounds env face
  pixelateRect er.x er.y er.width er.height

/-! ## Block pixelation (`pixelateRegion`,
`src/components/ImageProcessor.tsx`, lines 98–164) on the local region
buffer

`ctx.getImageData` hands `pixelateRegion` a `width × height` RGBA array;
it is modelled as a total function `ℕ → ℕ → RGBA` of which only
`[0, w) × [0, h)` is meaningful. For every pixel of a grid block the
in-loop index guard `idx >= 0 && idx + 3 < data.length` passes
(indices stay below `4·w·h`), so each block's average counts all of its
`blockWidth · blockHeight` pixels and the overwrite covers the whole
block; the `count > 0` check of the source is kept in `applyBlock`. -/

/-- An RGBA sample (each channel a byte value). -/
structure RGBA where
  r : ℕ
  g : ℕ
  b : ℕ
  a : ℕ
deriving DecidableEq, Repr

/-- A local region pixel buffer. -/
def Buf : Type := ℕ → ℕ → RGBA

/-- The four channel projections (the source averages and overwrites
`r`, `g`, `b` and `a` alike). -/
def chans : List (RGBA → ℕ) := [RGBA.r, RGBA.g, RGBA.b, RGBA.a]

/-- `Math.round(s / c)` for naturals (exact for the magnitudes the
source produces): `⌊s/c + 1/2⌋ = (2·s + c) / (2·c)`. -/
def roundDiv (s c : ℕ) : ℕ := (2 * s + c) / (2 * c)

/-- Corner of the grid block containing coordinate `px`. -/
def blockStart (psz px : ℕ) : ℕ := psz * (px / psz)

/-- The loop heads `for (blockY = 0; blockY < h; blockY += pixelSize)`:
all multiples of `psz` below `len`. -/
def blockStarts (len psz : ℕ) : List ℕ :=
  (List.range ((len + psz - 1) / psz)).map (· * psz)

/-- The coordinates covered by the block starting at `b` along an axis
of length `len`: `blockWidth = Math.min(pixelSize, len - b)` cells. -/
def blockCells (len psz b : ℕ) : List ℕ :=
  (List.range (min psz (len - b))).map (b + ·)

/-- The pixels of the block with corner `(u, v)` (`u` a blockX, `v` a
blockY), in the row-major order of the source loops. -/
def blockPixels (w h psz u v : ℕ) : List (ℕ × ℕ) :=
  (blockCells h psz v).flatMap
    (fun py => (blockCells w psz u).map (fun px => (px, py)))

/-- Sum of one channel over a list of pixel coordinates. -/
def sumChan (f : Buf) (ch : RGBA → ℕ) (cells : List (ℕ × ℕ)) : ℕ :=
  (cells.map (fun q => ch (f q.1 q.2))).sum

/-- The rounded per-channel average `pixelateRegion` computes for the
block at `(u, v)`. -/
def blockAvg (f : Buf) (w h psz u v : ℕ) : RGBA :=
  let cells := blockPixels w h psz u v
  let n := cells.length
  ⟨roundDiv (sumChan f RGBA.r cells) n, roundDiv (sumChan f RGBA.g cells) n,
   roundDiv (sumChan f RGBA.b cells) n, roundDiv (sumChan f RGBA.a cells) n⟩

/-- One block iteration of `pixelateRegion`: when the block has pixels
(`count > 0`), overwrite each of them with the block average computed
from the current buffer. -/
def applyBlock (w h psz : ℕ) (f : Buf) (blk : ℕ × ℕ) : Buf :=
  let cells := blockPixels w h psz blk.1 blk.2
  if cells.length = 0 then f
  else fun px py =>
    if (px, py) ∈ cells then blockAvg f w h psz blk.1 blk.2 else f px py

/-- The blocks of the grid in source order: outer loop over `blockY`,
inner loop over `blockX`; elements are `(blockX, blockY)`. -/
def pixelBlocks (w h psz : ℕ) : List (ℕ × ℕ) :=
  ((blockStarts h psz) ×ˢ (blockStarts w psz)).map (fun q => (q.2, q.1))

/-- `pixelateRegion`'s double loop over the block grid. -/
def pixelate (w h psz : ℕ) (f : Buf) : Buf :=
  (pixelBlocks w h psz).foldl (applyBlock w h psz) f

/-! ## Pixel sort (`pixelSortRegion`, lines 167–277, and
`pixelSortEyeRegion`, lines 313–416) at the row level

A row is a `List RGBA` (the source's `rowPixels`, whose records carry
their brightness alongside; brightness is recomputed here from the
channels). `0.299/0.587/0.114` are modelled by the exact rationals
`299/1000` etc. Each interval sort is JS stable `sort` by ascending
brightness, i.e. `insSortK bright`. The plain variant's synthesized
intervals come from a loop stepping by `2·segmentSize`; for
`segmentSize = 0` that JS loop does not terminate, so the model returns
no intervals there and the theorems carry a hypothesis keeping out of
that case. The eye variant divides `30 / intensity`, so `intensity = 0`
(division by zero, `Infinity` in JS) is likewise out of the model. -/

/-- Luminance of a pixel: `r·0.299 + g·0.587 + b·0.114`. -/
def bright (p : RGBA) : ℚ :=
  (p.r : ℚ) * (299/1000) + (p.g : ℚ) * (587/1000) + (p.b : ℚ) * (114/1000)

/-- JS stable `sort((a, b) => a.brightness - b.brightness)`. -/
def sortAsc : List RGBA → List RGBA := insSortK bright

/-- The sub-row at positions `[s, e]` (`rowPixels.slice(start, end+1)`). -/
def rowSlice (row : List RGBA) (s e : ℕ) : List RGBA :=
  (row.drop s).take (e + 1 - s)

/-- One interval pass: when `end > start`, stably sort the span by
ascending brightness and write it back in place. -/
def applyInterval (row : List RGBA) (se : ℕ × ℕ) : List RGBA :=
  if se.1 < se.2 then
    row.take se.1 ++ sortAsc (rowSlice row se.1 se.2) ++ row.drop (se.2 + 1)
  else row

/-- The threshold-driven interval detector shared by both variants
(state `st`: the open interval's start, `-1` modelled by `none`):
a pixel is sortable when its brightness exceeds the threshold or falls
below `255 − threshold`; a closing interval is kept when longer than
`minG`; the final open interval is closed at the row end under the same
length condition. -/
def detectGo (T : ℚ) (minG : ℕ) : List RGBA → ℕ → Option ℕ → List (ℕ × ℕ)
  | [], i, st =>
    match st with
    | some s => if minG < i - s then [(s, i - 1)] else []
    | none => []
  | p :: rest, i, st =>
    if bright p > T ∨ bright p < 255 - T then
      match st with
      | none => detectGo T minG rest (i + 1) (some i)
      | some s => detectGo T minG rest (i + 1) (some s)
    else
      match st with
      | some s =>
        if minG < i - s then (s, i - 1) :: detectGo T minG rest (i + 1) none
        else detectGo T minG rest (i + 1) none
      | none => detectGo T minG rest (i + 1) none

/-- Intervals detected over a whole row. -/
def detectIntervals (T : ℚ) (minG : ℕ) (row : List RGBA) : List (ℕ × ℕ) :=
  detectGo T minG row 0 none

/-- `brightnessThreshold = 60 + intensity * 0.6` (plain variant). -/
def thrPlain (I : ℚ) : ℚ := 60 + I * (6/10)

/-- `segmentSize = Math.floor(iw * (intensity / 200))` (plain variant). -/
def segPlain (iw : ℕ) (I : ℚ) : ℕ := (⌊(iw : ℚ) * (I / 200)⌋).toNat

/-- The plain variant's synthesized-interval loop:
`for (start = 0; start < len − seg; start += 2·seg)
  push (start, min(start + seg, len − 1))`.
For `seg = 0` the JS loop diverges; the model stops (guard `0 < seg`). -/
def synthGo (len seg : ℕ) (start : ℕ) : List (ℕ × ℕ) :=
  if h : 0 < seg ∧ start < len - seg then
    (start, min (start + seg) (len - 1)) :: synthGo len seg (start + 2 * seg)
  else []
termination_by len - start
decreasing_by omega

/-- Synthesized intervals of the plain variant. -/
def synthIntervals (len seg : ℕ) : List (ℕ × ℕ) := synthGo len seg 0

/-- The plain variant's interval selection for one row: detected
intervals, or — if none were found and intensity exceeds 30 —
synthesized ones. -/
def plainIntervals (I : ℚ) (row : List RGBA) : List (ℕ × ℕ) :=
  let d := detectIntervals (thrPlain I) 5 row
  if d = [] ∧ 30 < I then synthIntervals row.length (segPlain row.length I)
  else d

/-- One row of `pixelSortRegion`: fold the interval sorts over the row
in order. -/
def processRowPlain (I : ℚ) (row : List RGBA) : List RGBA :=
  (plainIntervals I row).foldl applyInterval row

/-- `brightnessThreshold = 40 + intensity * 0.4` (eye variant). -/
def thrEye (I : ℚ) : ℚ := 40 + I * (4/10)

/-- `segmentSize = Math.max(8, Math.floor(iw * (30 / intensity)))`
(eye variant). -/
def segEye (iw : ℕ) (I : ℚ) : ℕ := max 8 (⌊(iw : ℚ) * (30 / I)⌋).toNat

/-- The eye variant's segment intervals:
`for (start = 0; start < len; start += seg)
  if (min(start + 2·seg, len − 1) > start + 4) push` — consecutive
segments overlap (`end` reaches two segment widths past `start`). -/
def segIntervalsEye (len seg : ℕ) : List (ℕ × ℕ) :=
  (blockStarts len seg).filterMap
    (fun s => if s + 4 < min (s + seg * 2) (len - 1)
      then some (s, min (s + seg * 2) (len - 1)) else none)

/-- The eye variant's interval selection: the always-created segment
intervals followed by the brightness-detected ones (minimum length 3). -/
def eyeIntervals (I : ℚ) (row : List RGBA) : List (ℕ × ℕ) :=
  segIntervalsEye row.length (segEye row.length I) ++
    detectIntervals (thrEye I) 3 row

/-- One row of `pixelSortEyeRegion` (every row is processed:
`rowStep = 1`). -/
def processRowEye (I : ℚ) (row : List RGBA) : List RGBA :=
  (eyeIntervals I row).foldl applyInterval row

/-- The intervals `L` are an ordered disjoint chain starting at or
after `lo`: each interval is well-formed and ends before the next
begins. -/
def chainFrom : ℕ → List (ℕ × ℕ) → Prop
  | _, [] => True
  | lo, se :: rest => lo ≤ se.1 ∧ se.1 ≤ se.2 ∧ chainFrom (se.2 + 1) rest

/-- Concrete 14-pixel row: eight bright gray pixels (value 9) followed
by six dark ones (value 1); `bright` of a gray pixel with channel value
`v` is exactly `v`. -/
def rowCx : List RGBA :=
  [⟨9, 9, 9, 255⟩, ⟨9, 9, 9, 255⟩, ⟨9, 9, 9, 255⟩, ⟨9, 9, 9, 255⟩,
   ⟨9, 9, 9, 255⟩, ⟨9, 9, 9, 255⟩, ⟨9, 9, 9, 255⟩, ⟨9, 9, 9, 255⟩,
   ⟨1, 1, 1, 255⟩, ⟨1, 1, 1, 255⟩, ⟨1, 1, 1, 255⟩, ⟨1, 1, 1, 255⟩,
   ⟨1, 1, 1, 255⟩, ⟨1, 1, 1, 255⟩]

/-! ## Box blur (`blurRegion`, lines 470–546) on the local region buffer

Three passes, each one horizontal then one vertical 1D box blur; a pass
reads the `original` snapshot copied before it (so within-pass writes
never feed back), which the functional `passH`/`passV` model exactly.
Sample indices are clamped into `[0, dim − 1]` (edge replication, no
wrap). The assignment `data[idx] = sum / count` stores through a
`Uint8ClampedArray`: round half to even, clamped to `[0, 255]`
(`storeU8`; the double division `sum / count` is close enough to the
exact rational that the stored byte matches the exact model, since
`sum / count` has denominator at most `2·radius + 1` and never falls
within double-rounding distance of a half-integer tie it does not
equal). -/

/-- Round half to even on rationals (the `Uint8ClampedArray` rule). -/
def rEven (q : ℚ) : ℤ :=
  let f := q - ⌊q⌋
  if f < 1/2 then ⌊q⌋
  else if 1/2 < f then ⌊q⌋ + 1
  else if ⌊q⌋ % 2 = 0 then ⌊q⌋ else ⌊q⌋ + 1

/-- `Uint8ClampedArray` store: round half to even, clamp to `[0, 255]`. -/
def storeU8 (q : ℚ) : ℕ := (max 0 (min 255 (rEven q))).toNat

/-- Edge-replicated sample index:
`Math.max(0, Math.min(dim - 1, i))`. -/
def sampleIdx (dim : ℕ) (i : ℤ) : ℕ := (max 0 (min ((dim : ℤ) - 1) i)).toNat

/-- The sampled indices for position `pos`: offsets
`k ∈ [−radius, radius]` in loop order. -/
def windowIdx (radius dim pos : ℕ) : List ℕ :=
  (List.range (2 * radius + 1)).map
    (fun (k : ℕ) => sampleIdx dim ((pos : ℤ) + (k : ℤ) - (radius : ℤ)))

/-- Mean of a list of channel values (`sum / count`; the loop's `count`
is always the window length `2·radius + 1`). -/
def avgQ (l : List ℕ) : ℚ := ((l.sum : ℕ) : ℚ) / (l.length : ℚ)

/-- One horizontal 1D box pass over the `iw`-wide region. -/
def passH (radius iw : ℕ) (g : Buf) : Buf := fun px py =>
  ⟨storeU8 (avgQ ((windowIdx radius iw px).map (fun s => (g s py).r))),
   storeU8 (avgQ ((windowIdx radius iw px).map (fun s => (g s py).g))),
   storeU8 (avgQ ((windowIdx radius iw px).map (fun s => (g s py).b))),
   storeU8 (avgQ ((windowIdx radius iw px).map (fun s => (g s py).a)))⟩

/-- One vertical 1D box pass over the `ih`-high region. -/
def passV (radius ih : ℕ) (g : Buf) : Buf := fun px py =>
  ⟨storeU8 (avgQ ((windowIdx radius ih py).map (fun s => (g px s).r))),
   storeU8 (avgQ ((windowIdx radius ih py).map (fun s => (g px s).g))),
   storeU8 (avgQ ((windowIdx radius ih py).map (fun s => (g px s).b))),
   storeU8 (avgQ ((windowIdx radius ih py).map (fun s => (g px s).a)))⟩

/-- One full pass of `blurRegion`: horizontal then vertical. -/
def blurPass (radius iw ih : ℕ) (g : Buf) : Buf :=
  passV radius ih (passH radius iw g)

/-- `blurRegion`'s three repeated passes. -/
def blur3 (radius iw ih : ℕ) (g : Buf) : Buf :=
  blurPass radius iw ih (blurPass radius iw ih (blurPass radius iw ih g))

/-- Concrete constant buffer for the blur witness. -/
def gW : Buf := fun _ _ => ⟨10, 20, 30, 255⟩

/-! # Theorems -/

theorem insertK_perm {α : Type} (k : α → ℚ) (x : α) (l : List α) :
    (insertK k x l).Perm (x :: l) := by
  induction l with
  | nil => simp [insertK]
  | cons y ys ih =>
    by_cases h : k x ≤ k y
    · simp [insertK, h]
    · simp only [insertK, if_neg h]
      exact (ih.cons y).trans (List.Perm.swap x y ys)

theorem insSortK_perm {α : Type} (k : α → ℚ) (l : List α) :
    (insSortK k l).Perm l := by
  induction l with
  | nil => simp [insSortK]
  | cons x xs ih =>
    exact (insertK_perm k x (insSortK k xs)).trans (ih.cons x)

theorem insertK_pairwise {α : Type} (k : α → ℚ) (x : α) {l : List α}
    (hl : l.Pairwise (fun a b => k a ≤ k b)) :
    (insertK k x l).Pairwise (fun a b => k a ≤ k b) := by
  induction l with
  | nil => simp [insertK]
  | cons y ys ih =>
    rcases List.pairwise_cons.mp hl with ⟨hy, hys⟩
    by_cases h : k x ≤ k y
    · rw [insertK, if_pos h]
      refine List.pairwise_cons.mpr ⟨?_, hl⟩
      intro z hz
      rcases List.mem_cons.mp hz with rfl | hz
      · exact h
      · exact le_trans h (hy z hz)
    · rw [insertK, if_neg h]
      refine List.pairwise_cons.mpr ⟨?_, ih hys⟩
      intro z hz
      have hz' : z ∈ x :: ys := (insertK_perm k x ys).mem_iff.mp hz
      rcases List.mem_cons.mp hz' with rfl | hz'
      · exact le_of_lt (lt_of_not_le h)
      · exact hy z hz'

theorem insSortK_pairwise {α : Type} (k : α → ℚ) (l : List α) :
    (insSortK k l).Pairwise (fun a b => k a ≤ k b) := by
  induction l with
  | nil => simp [insSortK]
  | cons x xs ih => exact insertK_pairwise k x ih

theorem insertK_filter_key {α : Type} (k : α → ℚ) (x : α) (l : List α) (q : ℚ) :
    (insertK k x l).filter (fun y => decide (k y = q)) =
      if k x = q then x :: l.filter (fun y => decide (k y = q))
      else l.filter (fun y => decide (k y = q)) := by
  induction l with
  | nil => by_cases h : k x = q <;> simp [insertK, h]
  | cons y ys ih =>
    by_cases h : k x ≤ k y
    · rw [insertK, if_pos h]
      by_cases hq : k x = q <;> simp [hq]
    · have hlt : k y < k x := lt_of_not_le h
      rw [insertK, if_neg h]
      by_cases hq : k x = q
      · have hyq : ¬ (k y = q) := by
          intro hyq; rw [hyq, ← hq] at hlt; exact lt_irrefl _ hlt
        simp [hq, hyq, ih]
      · by_cases hyq : k y = q <;> simp [hq, hyq, ih]

theorem insSortK_stable {α : Type} (k : α → ℚ) (l : List α) (q : ℚ) :
    (insSortK k l).filter (fun y => decide (k y = q)) =
      l.filter (fun y => decide (k y = q)) := by
  induction l with
  | nil => simp [insSortK]
  | cons x xs ih =>
    rw [insSortK, insertK_filter_key]
    by_cases h : k x = q <;> simp [h, ih]

theorem insSortK_sorted_id {α : Type} (k : α → ℚ) {l : List α}
    (hl : l.Pairwise (fun a b => k a ≤ k b)) : insSortK k l = l := by
  induction l with
  | nil => simp [insSortK]
  | cons x xs ih =>
    rcases List.pairwise_cons.mp hl with ⟨hx, hxs⟩
    rw [insSortK, ih hxs]
    cases xs with
    | nil => simp [insertK]
    | cons y ys => simp [insertK, hx y (List.mem_cons_self y ys)]

theorem iou_comm (a b : BoxLike) : iou a b = iou b a := by
  unfold iou
  rw [max_comm a.x b.x, max_comm a.y b.y,
    min_comm (a.x + a.width) (b.x + b.width),
    min_comm (a.y + a.height) (b.y + b.height),
    add_comm (a.width * a.height) (b.width * b.height)]

theorem nms_foldl_pairwise (t : ℚ) :
    ∀ (l acc : List BoxLike),
      acc.Pairwise (fun a b => iou a b ≤ t) →
      (l.foldl
        (fun kept cand =>
          if ∀ k ∈ kept, iou cand k ≤ t then kept ++ [cand] else kept)
        acc).Pairwise (fun a b => iou a b ≤ t) := by
  intro l
  induction l with
  | nil => intro acc hacc; exact hacc
  | cons c cs ih =>
    intro acc hacc
    simp only [List.foldl_cons]
    by_cases hc : ∀ k ∈ acc, iou c k ≤ t
    · rw [if_pos hc]
      refine ih _ (List.pairwise_append.mpr ⟨hacc, List.pairwise_singleton _ _, ?_⟩)
      intro a ha b hb
      rw [List.mem_singleton.mp hb]
      rw [iou_comm]
      exact hc a ha
    · rw [if_neg hc]
      exact ih _ hacc

/-- C1. `nms` (src/pages/Index.tsx, lines 199–215) sorts the candidate
list descending by confidence — modelled by the stable sort `insSortK` on
the negated confidence, so ties in confidence keep their input order —
then keeps a candidate exactly when its IoU with every already-kept box is
at or below the threshold.  Consequences proved here, for every input list
and every threshold: (1) the sorted list used by `nms` is a permutation of
the input; (2) it is ordered descending by confidence; (3) it is stable:
for any confidence value, filtering the sorted list to boxes of that
confidence returns them in input order; (4) the output list is pairwise
`iou ≤ threshold`. -/
theorem nms_spec (boxes : List BoxLike) (t : ℚ) :
    (insSortK (fun b => -b.confidence) boxes).Perm boxes ∧
    (insSortK (fun b => -b.confidence) boxes).Pairwise
      (fun a b => b.confidence ≤ a.confidence) ∧
    (∀ c : ℚ,
      (insSortK (fun b => -b.confidence) boxes).filter
          (fun b => decide (b.confidence = c)) =
        boxes.filter (fun b => decide (b.confidence = c))) ∧
    (nms boxes t).Pairwise (fun a b => iou a b ≤ t) := by
  refine ⟨insSortK_perm _ boxes, ?_, ?_, ?_⟩
  · have h := insSortK_pairwise (fun b : BoxLike => -b.confidence) boxes
    exact h.imp (fun hab => by simpa using hab)
  · intro c
    have h := insSortK_stable (fun b : BoxLike => -b.confidence) boxes (-c)
    have hpred : (fun b : BoxLike => decide (-b.confidence = -c)) =
        (fun b : BoxLike => decide (b.confidence = c)) := by
      funext b
      by_cases hb : b.confidence = c
      · simp [hb]
      · simp [hb, fun h => hb (neg_injective h)]
    rw [hpred] at h
    exact h
  · exact nms_foldl_pairwise t _ [] List.Pairwise.nil

/-- C6. Whenever the underlying detector fails (models: the native call
throws, or the downscale call made after a successful ≤1-face native
pass throws), `detectFaces` does not propagate the failure: it returns
exactly the two synthetic regions — first at `x = 0.25·W`, `y = 0.15·H`,
`width = 0.2·W`, `height = 0.3·H` with confidence `0.85`; second at
`x = 0.55·W`, `y = 0.2·H`, `width = 0.18·W`, `height = 0.25·H` with
confidence `0.78` — each with a synthesized landmark set, and the
function returns normally (it is total by construction). A detector
that successfully returns zero faces never triggers the fallback: the
result is the empty list. -/
theorem detector_failure_spec (env : JsMath)
    (detE det0 detD : Query → Except Unit (List RawPred)) (W H : ℚ)
    (p1 : List RawPred)
    (hE : detE (nativeQuery W H) = Except.error ())
    (h01 : det0 (nativeQuery W H) = Except.ok [])
    (h02 : det0 (downQuery W H) = Except.ok [])
    (hD1 : detD (nativeQuery W H) = Except.ok p1)
    (hDlen : p1.length ≤ 1) (hDW : 640 < W)
    (hD2 : detD (downQuery W H) = Except.error ()) :
    detectFaces env detE W H = fallbackFaces env W H ∧
    detectFaces env detD W H = fallbackFaces env W H ∧
    (fallbackFaces env W H).length = 2 ∧
    (fallbackFaces env W H).map
        (fun f => (f.x, f.y, f.width, f.height, f.confidence)) =
      [(W * (25/100), H * (15/100), W * (2/10), H * (3/10), 85/100),
       (W * (55/100), H * (2/10), W * (18/100), H * (25/100), 78/100)] ∧
    (∀ f ∈ fallbackFaces env W H, f.landmarks ≠ none) ∧
    detectFaces env det0 W H = [] := by
  refine ⟨?_, ?_, ?_, ?_, ?_, ?_⟩
  · simp [detectFaces, detectFacesRun, hE]
  · simp [detectFaces, detectFacesRun, hD1, hD2, hDlen, hDW]
  · simp [fallbackFaces]
  · simp [fallbackFaces]
  · intro f hf
    rcases List.mem_cons.mp hf with rfl | hf
    · simp
    · rcases List.mem_cons.mp hf with rfl | hf
      · simp
      · simp at hf
  · simp [detectFaces, detectFacesRun, h01, h02, hDW]

/-- C7 (code bug evidence). The containment guarantee fails on the
code: for a raw prediction with negative top-left x
(`topLeft = (-50, 10)`, `bottomRight = (100, 60)`) on a 100×100 image,
`detectFaces` clamps `x` to `0` but computes
`width = min(W - x1, x2 - x1)` from the *unclamped* `x1`, emitting a
region with `x + width = 150 > 100 = imageWidth`. -/
theorem region_containment_bug :
    (detectFaces envZ detC7 100 100).map
        (fun f => (f.x, f.y, f.x + f.width, f.y + f.height)) =
      [(0, 10, 150, 60)] ∧
    ∃ f ∈ detectFaces envZ detC7 100 100, ¬ (f.x + f.width ≤ 100) := by
  have hfaces : detectFaces envZ detC7 100 100 =
      [{ x := 0, y := 10, width := 150, height := 50, confidence := 9/10,
         landmarks := some [] }] := by
    norm_num [detectFaces, detectFacesRun, detC7, nativeQuery, processPred,
      predC7, envZ, max_def, min_def, List.filterMap_cons, List.filterMap_nil]
  constructor
  · rw [hfaces]; norm_num
  · rw [hfaces]
    refine ⟨{ x := 0, y := 10, width := 150, height := 50, confidence := 9/10,
              landmarks := some [] }, List.mem_singleton_self _, ?_⟩
    norm_num

/-- Witness for `detector_failure_spec` at concrete inputs: an
800×600 image, an always-throwing detector (fallback returned) and an
always-zero-faces detector (empty result, no fallback). -/
theorem detector_failure_spec_witness :
    detectFaces envZ detErr 800 600 = fallbackFaces envZ 800 600 ∧
    detectFaces envZ detNil 800 600 = [] := by
  have h := detector_failure_spec envZ detErr detNil detMixC6 800 600 []
    rfl rfl rfl (by simp [detMixC6]) (by norm_num) (by norm_num)
    (by norm_num [detMixC6, downQuery, nativeQuery, targetHeight,
      Query.mk.injEq, round_eq])
  exact ⟨h.1, h.2.2.2.2.2⟩

/-- C9 counterexample. The claim's second-pass trigger is the image's
larger dimension exceeding 640; the code tests only `naturalWidth > 640`.
On a 500×2000 image (larger dimension 2000 > 640) whose native pass
finds nothing but whose downscaled pass finds one face, the code
(`detectFaces`) never runs the second pass and returns no faces, while
the claim's behaviour (`detectFacesClaimC9`, identical but for the
trigger as stated) adopts the second pass and returns one face. -/
theorem downscale_trigger_counterexample :
    detectFaces envZ detC9 500 2000 = [] ∧
    (detectFacesClaimC9 envZ detC9 500 2000).map
        (fun f => (f.x, f.y, f.width, f.height)) = [(0, 0, 100, 100)] := by
  constructor
  · norm_num [detectFaces, detectFacesRun, detC9, nativeQuery, downQuery,
      targetHeight, Query.mk.injEq, round_eq]
  · have h : detectFacesClaimC9 envZ detC9 500 2000 =
        [{ x := 0, y := 0, width := 100, height := 100, confidence := 9/10,
           landmarks := some [] }] := by
      norm_num [detectFacesClaimC9, detC9, nativeQuery, downQuery,
        targetHeight, Query.mk.injEq, round_eq, processPred, predC9, envZ,
        max_def, min_def, List.filterMap_cons, List.filterMap_nil]
    rw [h]; norm_num

/-- C9 as amended: the second pass is considered exactly when the native
pass yields at most one prediction and the image's *width* exceeds the
640px cutover (not its larger dimension); it is adopted iff it yields
strictly more predictions, and an adopted pass has every box coordinate,
dimension, confidence default and landmark coordinate rescaled to native
space by `(W/640, H/targetHeight)` as given by `processPred`. -/
theorem downscale_second_pass_spec (env : JsMath)
    (det : Query → Except Unit (List RawPred)) (W H : ℚ)
    (p1 p2 : List RawPred)
    (h1 : det (nativeQuery W H) = Except.ok p1)
    (h2 : det (downQuery W H) = Except.ok p2) :
    (p1.length ≤ 1 → 640 < W → p1.length < p2.length →
      detectFaces env det W H =
        p2.filterMap (processPred env W H (W / 640) (H / targetHeight W H))) ∧
    (p1.length ≤ 1 → 640 < W → ¬ p1.length < p2.length →
      detectFaces env det W H = p1.filterMap (processPred env W H 1 1)) ∧
    (¬ (p1.length ≤ 1 ∧ 640 < W) →
      detectFaces env det W H = p1.filterMap (processPred env W H 1 1)) ∧
    (∀ sx sy p f, processPred env W H sx sy p = some f →
      f.x = max 0 (p.x1 * sx) ∧ f.y = max 0 (p.y1 * sy) ∧
      f.width = min (W - p.x1 * sx) (p.x2 * sx - p.x1 * sx) ∧
      f.height = min (H - p.y1 * sy) (p.y2 * sy - p.y1 * sy) ∧
      f.confidence = p.probability.getD (9/10) ∧
      (∀ ls, p.landmarks = some ls →
        f.landmarks =
          some (ls.map (fun pt => (⟨pt.x * sx, pt.y * sy⟩ : Point))))) := by
  refine ⟨?_, ?_, ?_, ?_⟩
  · intro ha hb hc
    simp [detectFaces, detectFacesRun, h1, h2, ha, hb, hc]
  · intro ha hb hc
    simp [detectFaces, detectFacesRun, h1, h2, ha, hb, hc]
  · intro hc
    simp [detectFaces, detectFacesRun, h1, hc]
  · intro sx sy p f hpf
    simp only [processPred] at hpf
    by_cases hc : p.x2 * sx - p.x1 * sx < 20 ∨ p.y2 * sy - p.y1 * sy < 20
    · rw [if_pos hc] at hpf
      exact absurd hpf (by simp)
    · rw [if_neg hc] at hpf
      have hf := Option.some.inj hpf
      subst hf
      refine ⟨rfl, rfl, rfl, rfl, rfl, ?_⟩
      intro ls hls
      simp [hls]

/-- Witness for `downscale_second_pass_spec`: a 1000×1000 image whose
native pass finds nothing and whose downscaled pass finds `predC9`, so
the second pass is adopted. -/
theorem downscale_second_pass_spec_witness :
    detectFaces envZ detC9W 1000 1000 =
      [predC9].filterMap
        (processPred envZ 1000 1000 (1000 / 640)
          (1000 / targetHeight 1000 1000)) := by
  refine (downscale_second_pass_spec envZ detC9W 1000 1000 [] [predC9]
    (by simp [detC9W]) ?_).1 (by norm_num) (by norm_num) (by norm_num)
  norm_num [detC9W, downQuery, nativeQuery, targetHeight,
    Query.mk.injEq, round_eq]

/-- C10 counterexample. No tiled detection pass exists in the code:
whatever fixed tile size the claim assumes, there is an image size and a
detector for which the passes leave at most one region and yet the
origin tile is never queried — `detectFaces` only ever queries the
native image and the 640-wide downscaled copy. -/
theorem no_tiled_pass_counterexample : ¬ tiledPassClaim := by
  rintro ⟨T, _hT, hAll⟩
  have hW1000 : ((1000 : ℚ)) ≤ ((T + 1000 : ℕ) : ℚ) := by
    exact_mod_cast Nat.le_add_left 1000 T
  set W : ℚ := ((T + 1000 : ℕ) : ℚ) with hWdef
  have hW640 : (640 : ℚ) < W := lt_of_lt_of_le (by norm_num) hW1000
  have hWne : W ≠ 0 := ne_of_gt (lt_of_lt_of_le (by norm_num) hW1000)
  have hTltW : (T : ℚ) < W := by
    rw [hWdef]
    exact_mod_cast Nat.lt_add_of_pos_right (by norm_num)
  have hfaces : detectFaces envZ detNil W (2 * W) = [] := by
    simp [detectFaces, detectFacesRun, detNil, hW640]
  have hqs : detectQueries envZ detNil W (2 * W) =
      [nativeQuery W (2 * W), downQuery W (2 * W)] := by
    simp [detectQueries, detectFacesRun, detNil, hW640]
  have htile := hAll envZ detNil W (2 * W) ⟨[], rfl⟩ (by rw [hfaces]; simp)
  rw [hqs] at htile
  have hminW : min (T : ℚ) W = T := min_eq_left (le_of_lt hTltW)
  have hminH : min (T : ℚ) (2 * W) = T :=
    min_eq_left (le_of_lt (lt_of_lt_of_le hTltW (by linarith)))
  rw [hminW, hminH] at htile
  have hth : targetHeight W (2 * W) = 1280 := by
    unfold targetHeight
    have h12 : 2 * W * (640 / W) = 1280 := by
      field_simp
      ring
    rw [h12]
    norm_num [round_eq]
  rcases List.mem_cons.mp htile with heq | htile
  · have hTW : (T : ℚ) = W := congrArg Query.w heq
    rw [hWdef] at hTW
    have : T = T + 1000 := by exact_mod_cast hTW
    omega
  · have heq := List.mem_singleton.mp htile
    have h640 : (T : ℚ) = 640 := congrArg Query.w heq
    have h1280 : (T : ℚ) = 1280 := by
      have hh := congrArg Query.h heq
      simpa [downQuery, hth] using hh
    rw [h640] at h1280
    norm_num at h1280

/-- C10 as amended: after the native pass (and possibly the downscale
pass) the detector is never consulted again — there is no tiled pass:
the query list is exactly the native query, plus the downscale query
when the native pass yields ≤ 1 prediction and the width exceeds 640.
The minimum-size filter of the claim does exist: a prediction is dropped
(`processPred` returns `none`) exactly when its scaled width or height
is below 20. -/
theorem no_tiled_pass_spec (env : JsMath)
    (det : Query → Except Unit (List RawPred)) (W H : ℚ) (p1 : List RawPred)
    (h1 : det (nativeQuery W H) = Except.ok p1) :
    detectQueries env det W H =
      (if p1.length ≤ 1 ∧ 640 < W then [nativeQuery W H, downQuery W H]
       else [nativeQuery W H]) ∧
    (∀ sx sy p, processPred env W H sx sy p = none ↔
      (p.x2 * sx - p.x1 * sx < 20 ∨ p.y2 * sy - p.y1 * sy < 20)) := by
  constructor
  · by_cases hc : p1.length ≤ 1 ∧ 640 < W
    · rw [if_pos hc]
      obtain ⟨ha, hb⟩ := hc
      cases hdq : det (downQuery W H) with
      | error e => simp [detectQueries, detectFacesRun, h1, hdq, ha, hb]
      | ok p2 =>
        by_cases h2 : p1.length < p2.length
        · simp [detectQueries, detectFacesRun, h1, hdq, ha, hb, h2]
        · simp [detectQueries, detectFacesRun, h1, hdq, ha, hb, h2]
    · rw [if_neg hc]
      simp [detectQueries, detectFacesRun, h1, hc]
  · intro sx sy p
    simp only [processPred]
    by_cases hc : p.x2 * sx - p.x1 * sx < 20 ∨ p.y2 * sy - p.y1 * sy < 20
    · rw [if_pos hc]
      simp [hc]
    · rw [if_neg hc]
      simp [hc]

/-- Witness for `no_tiled_pass_spec`: on a 1000×1000 image with a
zero-face detector, the queries are exactly the native and downscale
queries. -/
theorem no_tiled_pass_spec_witness :
    detectQueries envZ detNil 1000 1000 =
      [nativeQuery 1000 1000, downQuery 1000 1000] := by
  have h := (no_tiled_pass_spec envZ detNil 1000 1000 [] rfl).1
  rw [if_pos ⟨by simp, by norm_num⟩] at h
  exact h

/-- C2 (code bug evidence). `pixelateRegion` only rounds its rectangle;
it never clamps it to the buffer (unlike `pixelSortRegion` and
`blurRegion`, which clamp their origin at 0). Through
`pixelateEyeRegionPrecise`, the eye region of a face whose eyes sit at
`(1,10)`–`(11,10)` has `x = min(1,11) − 0.4·10 = −3`, so the pixelation
reads (and writes back) canvas pixels in column `−3`, outside
`[0, W) × [0, H)` for every buffer — e.g. the pixel `(−3, 8)` on a
100×100 buffer. -/
theorem pixelate_bounds_bug :
    pixelateEyeRect envDemo faceEdge = ⟨-3, 8, 18, 4⟩ ∧
    ((-3 : ℤ), (8 : ℤ)) ∈ rectReads ⟨-3, 8, 18, 4⟩ ∧
    ¬ inBounds 100 100 ((-3 : ℤ), (8 : ℤ)) := by
  refine ⟨?_, by decide, fun h => absurd h.1 (by norm_num)⟩
  norm_num [pixelateEyeRect, getEyeRegionBounds, envDemo, faceEdge,
    pixelateRect, IRect.mk.injEq, round_eq]

/-- C8 counterexample. With eyes at `(0,0)` and `(3,4)` (Euclidean
distance 5, padding `0.4·5 = 2`) the code's sub-region width is the
*horizontal separation* plus padding on both ends, `|3−0| + 2·2 = 7` —
not the claimed eye-to-eye *distance* plus padding on both ends,
`5 + 2·2 = 9`. And for a landmark-less 10×10 face at the origin the
code's fallback band starts at `x = 1.5` with width `7` — not the
claimed full region width starting at `x = 0`. `getEyeRegionBoundsClaim`
is the claim's description rendered as a definition. -/
theorem eye_region_counterexample :
    (getEyeRegionBounds envDemo faceTilted).width = 7 ∧
    (getEyeRegionBoundsClaim envDemo faceTilted).width = 9 ∧
    getEyeRegionBounds envDemo faceTilted ≠
      getEyeRegionBoundsClaim envDemo faceTilted ∧
    (getEyeRegionBounds envDemo faceNoLm).width = 7 ∧
    (getEyeRegionBounds envDemo faceNoLm).x = 3/2 ∧
    (getEyeRegionBoundsClaim envDemo faceNoLm).width = 10 ∧
    (getEyeRegionBoundsClaim envDemo faceNoLm).x = 0 := by
  have h1 : (getEyeRegionBounds envDemo faceTilted).width = 7 := by
    norm_num [getEyeRegionBounds, envDemo, faceTilted]
  have h2 : (getEyeRegionBoundsClaim envDemo faceTilted).width = 9 := by
    norm_num [getEyeRegionBoundsClaim, envDemo, faceTilted]
  refine ⟨h1, h2, fun h => ?_, ?_, ?_, ?_, ?_⟩
  · rw [congrArg EyeRegion.width h, h2] at h1
    norm_num at h1
  · norm_num [getEyeRegionBounds, faceNoLm]
  · norm_num [getEyeRegionBounds, faceNoLm]
  · norm_num [getEyeRegionBoundsClaim, faceNoLm]
  · norm_num [getEyeRegionBoundsClaim, faceNoLm]

/-- C8 as amended. With ≥ 2 landmark points the resolver takes indices
0 and 1 as the eye centers, pads by 0.4 times their Euclidean distance
and returns the axis-aligned box centred on the eye midpoint whose
width is the *horizontal* eye separation `|Δx|` plus the padding on both
ends (not the Euclidean distance plus padding), whose height is the
padding, and whose tilt is `atan2(Δy, Δx)`; with fewer landmarks it
falls back to a horizontal band starting at 15% of region width and 25%
of region height, spanning 70% of the width and 30% of the height, with
zero tilt (not the full region width). -/
theorem eye_region_spec (env : JsMath) (face : DetectedFace) :
    (∀ le re rest, face.landmarks = some (le :: re :: rest) →
      (let d := env.sqrtQ ((re.x - le.x) ^ 2 + (re.y - le.y) ^ 2)
       let pad := d * (4/10)
       getEyeRegionBounds env face =
        ⟨min le.x re.x - pad, (le.y + re.y) / 2 - pad * (1/2),
         |re.x - le.x| + pad * 2, pad,
         env.atan2Q (re.y - le.y) (re.x - le.x)⟩) ∧
      (getEyeRegionBounds env face).x +
          (getEyeRegionBounds env face).width / 2 = (le.x + re.x) / 2 ∧
      (getEyeRegionBounds env face).y +
          (getEyeRegionBounds env face).height / 2 = (le.y + re.y) / 2) ∧
    ((∀ ls, face.landmarks = some ls → ls.length < 2) →
      getEyeRegionBounds env face =
        ⟨face.x + face.width * (15/100), face.y + face.height * (25/100),
         face.width * (7/10), face.height * (3/10), 0⟩) := by
  constructor
  · intro le re rest hlm
    have heq : getEyeRegionBounds env face =
        ⟨min le.x re.x -
            env.sqrtQ ((re.x - le.x) ^ 2 + (re.y - le.y) ^ 2) * (4/10),
         (le.y + re.y) / 2 -
            env.sqrtQ ((re.x - le.x) ^ 2 + (re.y - le.y) ^ 2) * (4/10) * (1/2),
         |re.x - le.x| +
            env.sqrtQ ((re.x - le.x) ^ 2 + (re.y - le.y) ^ 2) * (4/10) * 2,
         env.sqrtQ ((re.x - le.x) ^ 2 + (re.y - le.y) ^ 2) * (4/10),
         env.atan2Q (re.y - le.y) (re.x - le.x)⟩ := by
      simp only [getEyeRegionBounds, hlm]
    refine ⟨heq, ?_, ?_⟩
    · rw [heq]
      rcases le_total le.x re.x with hx | hx
      · rw [min_eq_left hx, abs_of_nonneg (sub_nonneg.mpr hx)]
        ring
      · rw [min_eq_right hx, abs_of_nonpos (sub_nonpos.mpr hx), neg_sub]
        ring
    · rw [heq]
      ring
  · intro hshort
    rcases hlm : face.landmarks with _ | ls
    · simp only [getEyeRegionBounds, hlm]
    · rcases ls with _ | ⟨a, _ | ⟨b, tl⟩⟩
      · simp only [getEyeRegionBounds, hlm]
      · simp only [getEyeRegionBounds, hlm]
      · have := hshort _ hlm
        simp at this
        omega

/-- Witness for `eye_region_spec`: the landmark branch at `faceTilted`
(height `= 0.4·5 = 2`, centred on the midpoint `(1.5, 2)`) and the
fallback branch at the landmark-less `faceNoLm`. -/
theorem eye_region_spec_witness :
    (getEyeRegionBounds envDemo faceTilted).height = 2 ∧
    (getEyeRegionBounds envDemo faceTilted).x +
        (getEyeRegionBounds envDemo faceTilted).width / 2 = 3/2 ∧
    getEyeRegionBounds envDemo faceNoLm = ⟨3/2, 5/2, 7, 3, 0⟩ := by
  have h := (eye_region_spec envDemo faceTilted).1 ⟨0, 0⟩ ⟨3, 4⟩ [] rfl
  have hfb := (eye_region_spec envDemo faceNoLm).2
    (by intro ls hls; simp [faceNoLm] at hls)
  refine ⟨?_, ?_, ?_⟩
  · rw [h.1]
    norm_num [envDemo]
  · rw [h.2.1]
    norm_num
  · rw [hfb]
    norm_num [faceNoLm, EyeRegion.mk.injEq]

theorem roundDiv_eq_round (s c : ℕ) (hc : 0 < c) :
    ((roundDiv s c : ℕ) : ℤ) = round ((s : ℚ) / (c : ℚ)) := by
  rw [round_eq]
  have h : (s : ℚ) / (c : ℚ) + 1/2 = ((2*s+c : ℕ) : ℚ) / ((2*c : ℕ) : ℚ) := by
    have hc' : (c : ℚ) ≠ 0 := Nat.cast_ne_zero.mpr hc.ne'
    push_cast
    field_simp
    ring
  rw [h, Rat.floor_natCast_div_natCast, roundDiv]
  exact Int.natCast_div _ _

theorem roundDiv_mul (n x : ℕ) (hn : 0 < n) : roundDiv (n * x) n = x := by
  rw [roundDiv, show 2 * (n * x) + n = n * (2 * x + 1) by ring,
    show 2 * n = n * 2 by ring, Nat.mul_div_mul_left _ _ hn]
  omega

theorem mem_blockStarts {len psz : ℕ} (hps : 0 < psz) {b : ℕ} :
    b ∈ blockStarts len psz ↔ ∃ i, b = i * psz ∧ b < len := by
  simp only [blockStarts, List.mem_map, List.mem_range]
  constructor
  · rintro ⟨i, hi, rfl⟩
    refine ⟨i, rfl, ?_⟩
    have h2 : (i + 1) * psz ≤ len + psz - 1 :=
      (Nat.le_div_iff_mul_le hps).mp hi
    have h3 : i * psz + psz ≤ len + psz - 1 := by
      rw [add_mul, one_mul] at h2; exact h2
    generalize i * psz = k at h3 ⊢
    omega
  · rintro ⟨i, rfl, hlt⟩
    refine ⟨i, ?_, rfl⟩
    rw [Nat.lt_iff_add_one_le, Nat.le_div_iff_mul_le hps, add_mul, one_mul]
    generalize i * psz = k at hlt ⊢
    omega

theorem mem_blockCells {len psz b c : ℕ} :
    c ∈ blockCells len psz b ↔ b ≤ c ∧ c < b + min psz (len - b) := by
  simp only [blockCells, List.mem_map, List.mem_range]
  constructor
  · rintro ⟨j, hj, rfl⟩
    omega
  · rintro ⟨hle, hlt⟩
    exact ⟨c - b, by omega, by omega⟩

theorem blockCells_lt {len psz b c : ℕ} (hb : b < len)
    (hc : c ∈ blockCells len psz b) : c < len := by
  rcases mem_blockCells.mp hc with ⟨hle, hlt⟩
  rcases le_total psz (len - b) with hcase | hcase
  · rw [min_eq_left hcase] at hlt; omega
  · rw [min_eq_right hcase] at hlt; omega

theorem blockStart_eq_of_mem {len psz b c : ℕ} (hps : 0 < psz)
    (hb : b ∈ blockStarts len psz) (hc : c ∈ blockCells len psz b) :
    blockStart psz c = b := by
  rcases (mem_blockStarts hps).mp hb with ⟨i, rfl, hlt⟩
  rcases mem_blockCells.mp hc with ⟨hle, hlt2⟩
  have hub : c < (i + 1) * psz := by
    have h1 : c < i * psz + min psz (len - i * psz) := hlt2
    have h2 : min psz (len - i * psz) ≤ psz := min_le_left _ _
    rw [add_mul, one_mul]
    omega
  rw [blockStart, Nat.div_eq_of_lt_le hle hub, mul_comm]

theorem self_mem_blockCells {len psz c : ℕ} (hps : 0 < psz) (hc : c < len) :
    c ∈ blockCells len psz (blockStart psz c) := by
  have hble : psz * (c / psz) ≤ c := Nat.mul_div_le c psz
  have hmod : psz * (c / psz) + c % psz = c := Nat.div_add_mod c psz
  have hmlt : c % psz < psz := Nat.mod_lt _ hps
  rw [mem_blockCells, blockStart]
  refine ⟨hble, ?_⟩
  rcases le_total psz (len - psz * (c / psz)) with hcase | hcase
  · rw [min_eq_left hcase]; omega
  · rw [min_eq_right hcase]; omega

theorem blockStart_mem_blockStarts {len psz c : ℕ} (hps : 0 < psz)
    (hc : c < len) : blockStart psz c ∈ blockStarts len psz := by
  rw [mem_blockStarts hps]
  exact ⟨c / psz, mul_comm _ _, lt_of_le_of_lt (Nat.mul_div_le c psz) hc⟩

theorem mem_blockPixels {w h psz u v : ℕ} {q : ℕ × ℕ} :
    q ∈ blockPixels w h psz u v ↔
      q.1 ∈ blockCells w psz u ∧ q.2 ∈ blockCells h psz v := by
  obtain ⟨qx, qy⟩ := q
  simp only [blockPixels, List.mem_flatMap, List.mem_map, Prod.mk.injEq]
  constructor
  · rintro ⟨py, hpy, px, hpx, rfl, rfl⟩
    exact ⟨hpx, hpy⟩
  · rintro ⟨hpx, hpy⟩
    exact ⟨qy, hpy, qx, hpx, rfl, rfl⟩

theorem blockPixels_length {w h psz u v : ℕ} :
    (blockPixels w h psz u v).length =
      min psz (h - v) * min psz (w - u) := by
  rw [blockPixels, List.length_flatMap]
  have h1 : ∀ py : ℕ,
      ((blockCells w psz u).map (fun px => (px, py))).length =
        min psz (w - u) := by
    intro py
    rw [List.length_map, blockCells, List.length_map, List.length_range]
  have h2 : (blockCells h psz v).map
        (List.length ∘ fun py => (blockCells w psz u).map (fun px => (px, py))) =
      (blockCells h psz v).map (fun _ => min psz (w - u)) :=
    List.map_congr_left (fun py _ => h1 py)
  rw [h2, List.map_const', List.sum_replicate, smul_eq_mul,
    blockCells, List.length_map, List.length_range]

theorem applyBlock_not_mem {w h psz : ℕ} {g : Buf} {blk : ℕ × ℕ}
    {px py : ℕ} (hn : (px, py) ∉ blockPixels w h psz blk.1 blk.2) :
    applyBlock w h psz g blk px py = g px py := by
  rw [applyBlock]
  by_cases h0 : (blockPixels w h psz blk.1 blk.2).length = 0
  · rw [if_pos h0]
  · rw [if_neg h0, if_neg hn]

theorem applyBlock_mem {w h psz : ℕ} {g : Buf} {blk : ℕ × ℕ}
    {px py : ℕ} (hm : (px, py) ∈ blockPixels w h psz blk.1 blk.2) :
    applyBlock w h psz g blk px py = blockAvg g w h psz blk.1 blk.2 := by
  rw [applyBlock]
  have h0 : (blockPixels w h psz blk.1 blk.2).length ≠ 0 :=
    List.length_pos.mpr (List.ne_nil_of_mem hm) |>.ne'
  rw [if_neg h0, if_pos hm]

theorem blockAvg_congr {w h psz u v : ℕ} {g f : Buf}
    (hgf : ∀ q ∈ blockPixels w h psz u v, g q.1 q.2 = f q.1 q.2) :
    blockAvg g w h psz u v = blockAvg f w h psz u v := by
  have hmap : ∀ ch : RGBA → ℕ,
      (blockPixels w h psz u v).map (fun q => ch (g q.1 q.2)) =
        (blockPixels w h psz u v).map (fun q => ch (f q.1 q.2)) :=
    fun ch => List.map_congr_left (fun q hq => by rw [hgf q hq])
  simp only [blockAvg, sumChan]
  rw [hmap RGBA.r, hmap RGBA.g, hmap RGBA.b, hmap RGBA.a]

theorem foldl_applyBlock_untouched (w h psz : ℕ) :
    ∀ (L : List (ℕ × ℕ)) (g : Buf) (px py : ℕ),
      (∀ blk ∈ L, (px, py) ∉ blockPixels w h psz blk.1 blk.2) →
      L.foldl (applyBlock w h psz) g px py = g px py := by
  intro L
  induction L with
  | nil => intro g px py _; rfl
  | cons blk L ih =>
    intro g px py hnot
    rw [List.foldl_cons,
      ih _ px py (fun B hB => hnot B (List.mem_cons_of_mem _ hB)),
      applyBlock_not_mem (hnot blk (List.mem_cons_self _ _))]

theorem foldl_applyBlock_char (w h psz : ℕ) (hps : 0 < psz) (f : Buf) :
    ∀ (L : List (ℕ × ℕ)) (g : Buf),
      L.Nodup →
      (∀ blk ∈ L, blk.1 ∈ blockStarts w psz ∧ blk.2 ∈ blockStarts h psz) →
      (∀ blk ∈ L, ∀ q ∈ blockPixels w h psz blk.1 blk.2,
        g q.1 q.2 = f q.1 q.2) →
      ∀ px py, px < w → py < h →
        (blockStart psz px, blockStart psz py) ∈ L →
        L.foldl (applyBlock w h psz) g px py =
          blockAvg f w h psz (blockStart psz px) (blockStart psz py) := by
  intro L
  induction L with
  | nil =>
    intro g _ _ _ px py _ _ hmem
    exact absurd hmem (List.not_mem_nil _)
  | cons blk L ih =>
    intro g hnd hcoords hg px py hw hh hmem
    have hq : (px, py) ∈
        blockPixels w h psz (blockStart psz px) (blockStart psz py) :=
      mem_blockPixels.mpr
        ⟨self_mem_blockCells hps hw, self_mem_blockCells hps hh⟩
    rcases List.nodup_cons.mp hnd with ⟨hblknot, hndL⟩
    rcases List.mem_cons.mp hmem with heq | hmem'
    · rw [List.foldl_cons]
      have hnotin : ∀ B ∈ L, (px, py) ∉ blockPixels w h psz B.1 B.2 := by
        intro B hB hmemB
        have hBc := hcoords B (List.mem_cons_of_mem _ hB)
        have h1 : blockStart psz px = B.1 :=
          blockStart_eq_of_mem hps hBc.1 (mem_blockPixels.mp hmemB).1
        have h2 : blockStart psz py = B.2 :=
          blockStart_eq_of_mem hps hBc.2 (mem_blockPixels.mp hmemB).2
        have hBblk : blk = B := by
          rw [← heq]
          exact Prod.ext h1 h2
        exact hblknot (hBblk ▸ hB)
      rw [foldl_applyBlock_untouched w h psz L _ px py hnotin]
      have hmemblk : (px, py) ∈ blockPixels w h psz blk.1 blk.2 := by
        rw [← heq]; exact hq
      rw [applyBlock_mem hmemblk,
        blockAvg_congr (hg blk (List.mem_cons_self _ _)), ← heq]
    · rw [List.foldl_cons]
      refine ih _ hndL
        (fun B hB => hcoords B (List.mem_cons_of_mem _ hB)) ?_
        px py hw hh hmem'
      intro B hB q hqB
      have hnot : q ∉ blockPixels w h psz blk.1 blk.2 := by
        intro hqblk
        have hBc := hcoords B (List.mem_cons_of_mem _ hB)
        have hblkc := hcoords blk (List.mem_cons_self _ _)
        have h1 : blockStart psz q.1 = B.1 :=
          blockStart_eq_of_mem hps hBc.1 (mem_blockPixels.mp hqB).1
        have h2 : blockStart psz q.2 = B.2 :=
          blockStart_eq_of_mem hps hBc.2 (mem_blockPixels.mp hqB).2
        have h3 : blockStart psz q.1 = blk.1 :=
          blockStart_eq_of_mem hps hblkc.1 (mem_blockPixels.mp hqblk).1
        have h4 : blockStart psz q.2 = blk.2 :=
          blockStart_eq_of_mem hps hblkc.2 (mem_blockPixels.mp hqblk).2
        have hBblk : blk = B := Prod.ext (h3 ▸ h1) (h4 ▸ h2)
        exact hblknot (hBblk ▸ hB)
      rw [show applyBlock w h psz g blk q.1 q.2 = g q.1 q.2 from
          applyBlock_not_mem (by simpa using hnot)]
      exact hg B (List.mem_cons_of_mem _ hB) q hqB

theorem pixelBlocks_nodup (w h psz : ℕ) (hps : 0 < psz) :
    (pixelBlocks w h psz).Nodup := by
  have hinj : Function.Injective (fun i : ℕ => i * psz) := by
    intro a b hab
    exact Nat.eq_of_mul_eq_mul_right hps hab
  have hnw : (blockStarts w psz).Nodup :=
    (List.nodup_range _).map hinj
  have hnh : (blockStarts h psz).Nodup :=
    (List.nodup_range _).map hinj
  exact (hnh.product hnw).map
    (fun a b hab => by
      obtain ⟨a1, a2⟩ := a
      obtain ⟨b1, b2⟩ := b
      simp only [Prod.mk.injEq] at hab
      exact Prod.ext hab.2 hab.1)

theorem mem_pixelBlocks {w h psz : ℕ} {blk : ℕ × ℕ} :
    blk ∈ pixelBlocks w h psz ↔
      blk.1 ∈ blockStarts w psz ∧ blk.2 ∈ blockStarts h psz := by
  obtain ⟨u, v⟩ := blk
  rw [pixelBlocks, List.mem_map]
  constructor
  · rintro ⟨⟨a, b⟩, hab, heq⟩
    rw [List.mem_product] at hab
    simp only [Prod.mk.injEq] at heq
    obtain ⟨rfl, rfl⟩ := heq
    exact ⟨hab.2, hab.1⟩
  · rintro ⟨hu, hv⟩
    exact ⟨(v, u), List.mem_product.mpr ⟨hv, hu⟩, rfl⟩

theorem pixelate_eq_blockAvg (w h psz : ℕ) (f : Buf) (hps : 0 < psz)
    (px py : ℕ) (hw : px < w) (hh : py < h) :
    pixelate w h psz f px py =
      blockAvg f w h psz (blockStart psz px) (blockStart psz py) := by
  refine foldl_applyBlock_char w h psz hps f (pixelBlocks w h psz) f
    (pixelBlocks_nodup w h psz hps)
    (fun blk hblk => mem_pixelBlocks.mp hblk)
    (fun _ _ _ _ => rfl) px py hw hh ?_
  exact mem_pixelBlocks.mpr
    ⟨blockStart_mem_blockStarts hps hw, blockStart_mem_blockStarts hps hh⟩

/-- C3. `pixelateRegion` partitions its rectangle into a grid of blocks
(partial at the edges: `blockWidth = min(pixelSize, width − blockX)`)
and overwrites every pixel of each block with the rounded arithmetic
mean of each channel — r, g, b and alpha — over that block.  Proved
here, for every buffer, rectangle and positive block size:
(1) every pixel of the rectangle ends up holding the rounded channel
means of its own grid block; (2) for a block fully inside the
rectangle, the sum of any output channel over the block is
`psz² · roundDiv(inputSum, psz²)`, hence the output block's channel
mean equals the input block's channel mean to rounding
(`outMean = round(inMean)` exactly); (3) a block on which the input is
constant (e.g. solid colour) is left unchanged. -/
theorem pixelate_spec (w h psz : ℕ) (f : Buf) (hps : 0 < psz) :
    (∀ px py, px < w → py < h →
      pixelate w h psz f px py =
        blockAvg f w h psz (blockStart psz px) (blockStart psz py)) ∧
    (∀ u v, u ∈ blockStarts w psz → v ∈ blockStarts h psz →
      psz ≤ w - u → psz ≤ h - v →
      ∀ ch ∈ chans,
        sumChan (pixelate w h psz f) ch (blockPixels w h psz u v) =
          psz * psz *
            roundDiv (sumChan f ch (blockPixels w h psz u v)) (psz * psz) ∧
        (sumChan (pixelate w h psz f) ch (blockPixels w h psz u v) : ℚ) /
            ((psz : ℚ) * psz) =
          ((round ((sumChan f ch (blockPixels w h psz u v) : ℚ) /
            ((psz : ℚ) * psz)) : ℤ) : ℚ)) ∧
    (∀ u v c, u ∈ blockStarts w psz → v ∈ blockStarts h psz →
      (∀ q ∈ blockPixels w h psz u v, f q.1 q.2 = c) →
      ∀ q ∈ blockPixels w h psz u v, pixelate w h psz f q.1 q.2 = c) := by
  have hval : ∀ u v, u ∈ blockStarts w psz → v ∈ blockStarts h psz →
      ∀ q ∈ blockPixels w h psz u v,
        pixelate w h psz f q.1 q.2 = blockAvg f w h psz u v := by
    intro u v hu hv q hq
    rcases mem_blockPixels.mp hq with ⟨h1, h2⟩
    have hulen : u < w := by
      obtain ⟨i, _, hlt⟩ := (mem_blockStarts hps).mp hu
      exact hlt
    have hvlen : v < h := by
      obtain ⟨i, _, hlt⟩ := (mem_blockStarts hps).mp hv
      exact hlt
    have hq1 : q.1 < w := blockCells_lt hulen h1
    have hq2 : q.2 < h := blockCells_lt hvlen h2
    rw [pixelate_eq_blockAvg w h psz f hps q.1 q.2 hq1 hq2,
      blockStart_eq_of_mem hps hu h1, blockStart_eq_of_mem hps hv h2]
  refine ⟨fun px py hw hh => pixelate_eq_blockAvg w h psz f hps px py hw hh,
    ?_, ?_⟩
  · intro u v hu hv hfw hfh ch hch
    have hn : (blockPixels w h psz u v).length = psz * psz := by
      rw [blockPixels_length, min_eq_left hfh, min_eq_left hfw]
    have hsum : sumChan (pixelate w h psz f) ch (blockPixels w h psz u v) =
        (blockPixels w h psz u v).length * ch (blockAvg f w h psz u v) := by
      rw [sumChan,
        List.map_congr_left (fun q hq => by rw [hval u v hu hv q hq]),
        List.map_const', List.sum_replicate, smul_eq_mul]
    have hch4 : ch (blockAvg f w h psz u v) =
        roundDiv (sumChan f ch (blockPixels w h psz u v))
          ((blockPixels w h psz u v).length) := by
      simp only [chans, List.mem_cons, List.not_mem_nil, or_false] at hch
      rcases hch with rfl | rfl | rfl | rfl <;> rfl
    constructor
    · rw [hsum, hch4, hn]
    · rw [hsum, hch4, hn]
      have hpos : 0 < psz * psz := Nat.mul_pos hps hps
      have hr := roundDiv_eq_round
        (sumChan f ch (blockPixels w h psz u v)) (psz * psz) hpos
      have hQ : ((psz : ℚ) * psz) ≠ 0 := by
        have : (psz : ℚ) ≠ 0 := Nat.cast_ne_zero.mpr hps.ne'
        exact mul_ne_zero this this
      have hcast : ((psz * psz *
            roundDiv (sumChan f ch (blockPixels w h psz u v)) (psz * psz)
            : ℕ) : ℚ) =
          ((psz : ℚ) * psz) *
            ((roundDiv (sumChan f ch (blockPixels w h psz u v)) (psz * psz)
              : ℕ) : ℚ) := by
        push_cast
        ring
      rw [hcast, mul_div_cancel_left₀ _ hQ]
      have hr' : ((roundDiv (sumChan f ch (blockPixels w h psz u v))
            (psz * psz) : ℕ) : ℚ) =
          ((round ((sumChan f ch (blockPixels w h psz u v) : ℚ) /
            ((psz * psz : ℕ) : ℚ)) : ℤ) : ℚ) := by
        exact_mod_cast congrArg (fun z : ℤ => (z : ℚ)) hr
      rw [hr']
      norm_num
  · intro u v c hu hv hconst q hq
    rw [hval u v hu hv q hq]
    have hne : (blockPixels w h psz u v).length ≠ 0 :=
      (List.length_pos.mpr (List.ne_nil_of_mem hq)).ne'
    have hpos : 0 < (blockPixels w h psz u v).length := Nat.pos_of_ne_zero hne
    have hsum : ∀ ch : RGBA → ℕ,
        sumChan f ch (blockPixels w h psz u v) =
          (blockPixels w h psz u v).length * ch c := by
      intro ch
      rw [sumChan,
        List.map_congr_left (fun q hq => by rw [hconst q hq]),
        List.map_const', List.sum_replicate, smul_eq_mul]
    obtain ⟨cr, cg, cb, ca⟩ := c
    simp only [blockAvg, hsum]
    congr 1 <;> exact roundDiv_mul _ _ hpos

/-- Witness for `pixelate_spec`: pixelating an 8×8 solid-red rectangle
with block size 4 leaves it unchanged (the spec's own scenario),
exercised at pixel `(0, 0)`. -/
theorem pixelate_spec_witness :
    0 < 4 ∧
    pixelate 8 8 4 (fun _ _ => ⟨255, 0, 0, 255⟩) 0 0 = ⟨255, 0, 0, 255⟩ := by
  refine ⟨by norm_num, ?_⟩
  exact (pixelate_spec 8 8 4 (fun _ _ => ⟨255, 0, 0, 255⟩) (by norm_num)).2.2
    0 0 ⟨255, 0, 0, 255⟩ (by decide) (by decide) (fun q hq => rfl)
    (0, 0) (by decide)

theorem rowSlice_eq_take_drop (row : List RGBA) (s e : ℕ) :
    rowSlice row s e = (row.take (e + 1)).drop s :=
  (List.drop_take (e + 1) s row).symm

theorem sortAsc_length (l : List RGBA) : (sortAsc l).length = l.length :=
  (insSortK_perm bright l).length_eq

theorem rowSlice_length {row : List RGBA} {s e : ℕ} (hse : s ≤ e)
    (he : e < row.length) : (rowSlice row s e).length = e + 1 - s := by
  rw [rowSlice, List.length_take, List.length_drop]
  omega

theorem applyInterval_take {row : List RGBA} {s' e' k : ℕ}
    (hs' : s' ≤ row.length) (hk : k ≤ s') :
    (applyInterval row (s', e')).take k = row.take k := by
  rw [applyInterval]
  by_cases h : s' < e'
  · rw [if_pos h]
    have hl1 : (row.take s').length = s' := by
      rw [List.length_take]; omega
    rw [List.append_assoc,
      List.take_append_of_le_length (by rw [hl1]; exact hk),
      List.take_take, min_eq_left hk]
  · rw [if_neg h]

theorem applyInterval_length {row : List RGBA} {s' e' : ℕ}
    (he' : e' < row.length) :
    (applyInterval row (s', e')).length = row.length := by
  rw [applyInterval]
  by_cases h : s' < e'
  · rw [if_pos h]
    have hsl : (rowSlice row s' e').length = e' + 1 - s' :=
      rowSlice_length (le_of_lt h) he'
    simp only [List.length_append, List.length_take, List.length_drop,
      sortAsc_length, hsl]
    omega
  · rw [if_neg h]

theorem applyInterval_firstlen {row : List RGBA} {s' e' : ℕ}
    (hlt : s' < e') (he' : e' < row.length) :
    (row.take s' ++ sortAsc (rowSlice row s' e')).length = e' + 1 := by
  rw [List.length_append, sortAsc_length,
    rowSlice_length (le_of_lt hlt) he', List.length_take]
  omega

theorem applyInterval_drop {row : List RGBA} {s' e' k : ℕ}
    (he' : e' < row.length) (hk : e' < k) :
    (applyInterval row (s', e')).drop k = row.drop k := by
  rw [applyInterval]
  by_cases h : s' < e'
  · rw [if_pos h]
    have hl1 := applyInterval_firstlen h he'
    calc ((row.take s' ++ sortAsc (rowSlice row s' e')) ++
            row.drop (e' + 1)).drop k
        = ((row.take s' ++ sortAsc (rowSlice row s' e')) ++
            row.drop (e' + 1)).drop
              ((row.take s' ++ sortAsc (rowSlice row s' e')).length +
                (k - (e' + 1))) := by
          rw [hl1]; congr 1; omega
      _ = (row.drop (e' + 1)).drop (k - (e' + 1)) := List.drop_append _
      _ = row.drop k := by rw [List.drop_drop]; congr 1; omega
  · rw [if_neg h]

theorem rowSlice_applyInterval_left {row : List RGBA} {s e s' e' : ℕ}
    (h : e < s') (hs' : s' ≤ row.length) :
    rowSlice (applyInterval row (s', e')) s e = rowSlice row s e := by
  rw [rowSlice_eq_take_drop, rowSlice_eq_take_drop,
    applyInterval_take hs' (by omega)]

theorem rowSlice_applyInterval_right {row : List RGBA} {s e s' e' : ℕ}
    (h : e' < s) (he' : e' < row.length) :
    rowSlice (applyInterval row (s', e')) s e = rowSlice row s e := by
  rw [rowSlice, rowSlice, applyInterval_drop he' h]

theorem sortAsc_singleton (x : RGBA) : sortAsc [x] = [x] := rfl

theorem rowSlice_applyInterval_self {row : List RGBA} {s e : ℕ}
    (hse : s ≤ e) (he : e < row.length) :
    rowSlice (applyInterval row (s, e)) s e = sortAsc (rowSlice row s e) := by
  by_cases h : s < e
  · rw [applyInterval, if_pos h]
    have hlen : (row.take s).length = s := by
      rw [List.length_take]; omega
    have hsl : (sortAsc (rowSlice row s e)).length = e + 1 - s := by
      rw [sortAsc_length, rowSlice_length hse he]
    have hdrop : ((row.take s ++ sortAsc (rowSlice row s e)) ++
        row.drop (e + 1)).drop s =
        sortAsc (rowSlice row s e) ++ row.drop (e + 1) := by
      calc ((row.take s ++ sortAsc (rowSlice row s e)) ++
              row.drop (e + 1)).drop s
          = (row.take s ++ (sortAsc (rowSlice row s e) ++
              row.drop (e + 1))).drop ((row.take s).length) := by
            rw [List.append_assoc, hlen]
        _ = sortAsc (rowSlice row s e) ++ row.drop (e + 1) :=
            List.drop_left _ _
    rw [rowSlice, hdrop]
    calc (sortAsc (rowSlice row s e) ++ row.drop (e + 1)).take (e + 1 - s)
        = (sortAsc (rowSlice row s e) ++ row.drop (e + 1)).take
            ((sortAsc (rowSlice row s e)).length) := by rw [hsl]
      _ = sortAsc (rowSlice row s e) := List.take_left _ _
  · have hseq : s = e := by omega
    subst hseq
    rw [applyInterval, if_neg h]
    have h1 : (rowSlice row s s).length = 1 := by
      rw [rowSlice_length (le_refl s) he]; omega
    obtain ⟨x, hx⟩ := List.length_eq_one.mp h1
    rw [hx, sortAsc_singleton]

theorem chainFrom_weaken {lo' lo : ℕ} {L : List (ℕ × ℕ)} (h : lo' ≤ lo)
    (hc : chainFrom lo L) : chainFrom lo' L := by
  cases L with
  | nil => trivial
  | cons se rest => exact ⟨le_trans h hc.1, hc.2.1, hc.2.2⟩

theorem chainFrom_start_le {lo : ℕ} {L : List (ℕ × ℕ)}
    (hc : chainFrom lo L) : ∀ se ∈ L, lo ≤ se.1 := by
  induction L generalizing lo with
  | nil => intro se hse; exact absurd hse (List.not_mem_nil _)
  | cons se0 rest ih =>
    intro se hse
    rcases List.mem_cons.mp hse with rfl | hse'
    · exact hc.1
    · have h1 := hc.1
      have h2 := hc.2.1
      have := ih hc.2.2 se hse'
      omega

theorem chainFrom_wf {lo : ℕ} {L : List (ℕ × ℕ)}
    (hc : chainFrom lo L) : ∀ se ∈ L, se.1 ≤ se.2 := by
  induction L generalizing lo with
  | nil => intro se hse; exact absurd hse (List.not_mem_nil _)
  | cons se0 rest ih =>
    intro se hse
    rcases List.mem_cons.mp hse with rfl | hse'
    · exact hc.2.1
    · exact ih hc.2.2 se hse'

theorem detectGo_spec (T : ℚ) (minG : ℕ) :
    ∀ (ps : List RGBA) (i : ℕ),
      (chainFrom i (detectGo T minG ps i none) ∧
        ∀ se ∈ detectGo T minG ps i none, se.2 < i + ps.length) ∧
      (∀ s, s ≤ i →
        chainFrom s (detectGo T minG ps i (some s)) ∧
        ∀ se ∈ detectGo T minG ps i (some s), se.2 < i + ps.length) := by
  intro ps
  induction ps with
  | nil =>
    intro i
    refine ⟨⟨trivial, ?_⟩, ?_⟩
    · intro se hse
      simp [detectGo] at hse
    · intro s hs
      simp only [detectGo]
      by_cases h : minG < i - s
      · rw [if_pos h]
        refine ⟨⟨le_refl s, by omega, trivial⟩, ?_⟩
        intro se hse
        rcases List.mem_singleton.mp hse with rfl
        simp only [List.length_nil]
        omega
      · rw [if_neg h]
        exact ⟨trivial, fun se hse => absurd hse (List.not_mem_nil _)⟩
  | cons p rest ih =>
    intro i
    have hlen : i + (p :: rest).length = (i + 1) + rest.length := by
      simp [List.length_cons]; omega
    by_cases hss : bright p > T ∨ bright p < 255 - T
    · refine ⟨?_, ?_⟩
      · simp only [detectGo, if_pos hss]
        have h := ((ih (i + 1)).2 i (by omega))
        exact ⟨chainFrom_weaken (by omega) h.1,
          fun se hse => by rw [hlen]; exact h.2 se hse⟩
      · intro s hs
        simp only [detectGo, if_pos hss]
        have h := ((ih (i + 1)).2 s (by omega))
        exact ⟨h.1, fun se hse => by rw [hlen]; exact h.2 se hse⟩
    · refine ⟨?_, ?_⟩
      · simp only [detectGo, if_neg hss]
        have h := (ih (i + 1)).1
        exact ⟨chainFrom_weaken (by omega) h.1,
          fun se hse => by rw [hlen]; exact h.2 se hse⟩
      · intro s hs
        simp only [detectGo, if_neg hss]
        have h := (ih (i + 1)).1
        by_cases hcl : minG < i - s
        · rw [if_pos hcl]
          refine ⟨⟨le_refl s, by omega, chainFrom_weaken (by omega) h.1⟩, ?_⟩
          intro se hse
          rcases List.mem_cons.mp hse with rfl | hse'
          · rw [hlen]; simp only []; omega
          · rw [hlen]; exact h.2 se hse'
        · rw [if_neg hcl]
          exact ⟨chainFrom_weaken (by omega) h.1,
            fun se hse => by rw [hlen]; exact h.2 se hse⟩

theorem synthGo_spec (len seg : ℕ) :
    ∀ n start, len - start ≤ n →
      chainFrom start (synthGo len seg start) ∧
      ∀ se ∈ synthGo len seg start, se.1 ≤ se.2 ∧ se.2 < len := by
  intro n
  induction n with
  | zero =>
    intro start h
    rw [synthGo, dif_neg (by omega : ¬(0 < seg ∧ start < len - seg))]
    exact ⟨trivial, fun se hse => absurd hse (List.not_mem_nil _)⟩
  | succ n ihn =>
    intro start h
    rw [synthGo]
    by_cases hc : 0 < seg ∧ start < len - seg
    · rw [dif_pos hc]
      obtain ⟨hseg, hlt⟩ := hc
      have hrec := ihn (start + 2 * seg) (by omega)
      have hminl := min_le_left (start + seg) (len - 1)
      have hminr := min_le_right (start + seg) (len - 1)
      refine ⟨⟨le_refl _, le_min (by omega) (by omega), ?_⟩, ?_⟩
      · exact chainFrom_weaken (by omega) hrec.1
      · intro se hse
        rcases List.mem_cons.mp hse with rfl | hse'
        · exact ⟨le_min (by omega) (by omega), by omega⟩
        · exact hrec.2 se hse'
    · rw [dif_neg hc]
      exact ⟨trivial, fun se hse => absurd hse (List.not_mem_nil _)⟩

theorem plainIntervals_spec (I : ℚ) (row : List RGBA) :
    chainFrom 0 (plainIntervals I row) ∧
    ∀ se ∈ plainIntervals I row, se.1 ≤ se.2 ∧ se.2 < row.length := by
  rw [plainIntervals]
  by_cases hc : detectIntervals (thrPlain I) 5 row = [] ∧ 30 < I
  · rw [if_pos hc]
    exact synthGo_spec row.length (segPlain row.length I) row.length 0
      (by omega)
  · rw [if_neg hc]
    have h := (detectGo_spec (thrPlain I) 5 row 0).1
    refine ⟨h.1, fun se hse => ⟨chainFrom_wf h.1 se hse, ?_⟩⟩
    have := h.2 se hse
    omega

theorem foldl_rowSlice_untouched (s e : ℕ) :
    ∀ (L : List (ℕ × ℕ)) (row : List RGBA),
      (∀ se ∈ L, e < se.1 ∧ se.1 ≤ se.2 ∧ se.2 < row.length) →
      rowSlice (L.foldl applyInterval row) s e = rowSlice row s e ∧
      (L.foldl applyInterval row).length = row.length := by
  intro L
  induction L with
  | nil => intro row _; exact ⟨rfl, rfl⟩
  | cons se0 L ih =>
    intro row hall
    obtain ⟨s0, e0⟩ := se0
    obtain ⟨h1, h2, h3⟩ := hall (s0, e0) (List.mem_cons_self _ _)
    have hlen : (applyInterval row (s0, e0)).length = row.length :=
      applyInterval_length h3
    rw [List.foldl_cons]
    have hrest : ∀ se ∈ L, e < se.1 ∧ se.1 ≤ se.2 ∧
        se.2 < (applyInterval row (s0, e0)).length := by
      intro se hse
      have := hall se (List.mem_cons_of_mem _ hse)
      rwa [hlen]
    obtain ⟨ihs, ihl⟩ := ih (applyInterval row (s0, e0)) hrest
    refine ⟨?_, by rw [ihl, hlen]⟩
    rw [ihs]
    exact rowSlice_applyInterval_left h1 (by omega)

theorem foldl_applyInterval_sorted :
    ∀ (L : List (ℕ × ℕ)) (row : List RGBA),
      chainFrom 0 L →
      (∀ se ∈ L, se.1 ≤ se.2 ∧ se.2 < row.length) →
      ∀ se ∈ L, rowSlice (L.foldl applyInterval row) se.1 se.2 =
        sortAsc (rowSlice row se.1 se.2) := by
  intro L
  induction L with
  | nil => intro row _ _ se hse; exact absurd hse (List.not_mem_nil _)
  | cons se0 L ih =>
    intro row hch hbnd se hse
    obtain ⟨s0, e0⟩ := se0
    obtain ⟨hlo, hse0, hch'⟩ := hch
    obtain ⟨_, he0len⟩ := hbnd (s0, e0) (List.mem_cons_self _ _)
    rw [List.foldl_cons]
    have hlen0 : (applyInterval row (s0, e0)).length = row.length :=
      applyInterval_length he0len
    rcases List.mem_cons.mp hse with rfl | hse'
    · have hafter : ∀ se2 ∈ L, e0 < se2.1 ∧ se2.1 ≤ se2.2 ∧
          se2.2 < (applyInterval row (s0, e0)).length := by
        intro se2 hse2
        have hst := chainFrom_start_le hch' se2 hse2
        have hb := hbnd se2 (List.mem_cons_of_mem _ hse2)
        rw [hlen0]
        exact ⟨by omega, hb.1, hb.2⟩
      obtain ⟨hsl, _⟩ :=
        foldl_rowSlice_untouched s0 e0 L (applyInterval row (s0, e0)) hafter
      rw [hsl, rowSlice_applyInterval_self hse0 he0len]
    · have hch0 : chainFrom 0 L := chainFrom_weaken (Nat.zero_le _) hch'
      have hbnd' : ∀ se2 ∈ L, se2.1 ≤ se2.2 ∧
          se2.2 < (applyInterval row (s0, e0)).length := by
        intro se2 hse2
        have := hbnd se2 (List.mem_cons_of_mem _ hse2)
        rwa [hlen0]
      rw [ih (applyInterval row (s0, e0)) hch0 hbnd' se hse']
      congr 1
      refine rowSlice_applyInterval_right ?_ he0len
      have := chainFrom_start_le hch' se hse'
      omega

theorem applyInterval_perm (row : List RGBA) (se : ℕ × ℕ) :
    (applyInterval row se).Perm row := by
  obtain ⟨s, e⟩ := se
  rw [applyInterval]
  by_cases h : s < e
  · rw [if_pos h]
    have hdecomp : row = row.take s ++ (rowSlice row s e ++ row.drop (e + 1)) := by
      rw [rowSlice]
      conv_lhs => rw [← List.take_append_drop s row]
      congr 1
      conv_lhs => rw [← List.take_append_drop (e + 1 - s) (row.drop s)]
      congr 1
      rw [List.drop_drop]
      congr 1
      omega
    rw [List.append_assoc]
    conv_rhs => rw [hdecomp]
    exact List.Perm.append_left _
      (List.Perm.append_right _ (insSortK_perm bright _))
  · rw [if_neg h]

theorem foldl_applyInterval_perm :
    ∀ (L : List (ℕ × ℕ)) (row : List RGBA),
      (L.foldl applyInterval row).Perm row := by
  intro L
  induction L with
  | nil => intro row; exact List.Perm.refl row
  | cons se0 L ih =>
    intro row
    rw [List.foldl_cons]
    exact (ih (applyInterval row se0)).trans (applyInterval_perm row se0)

/-- C4 as amended. Each selected span is stably sorted in place by
ascending luminance (`0.299R + 0.587G + 0.114B`), and re-applying the
sort to an already-sorted span is a no-op. For the plain pixel-sort
effect, the selected spans are pairwise disjoint (an ordered chain), so
the multiset of pixels within each span is preserved. For *both*
variants the whole processed row is a permutation of the input row. The
per-span multiset guarantee does NOT extend to the eye variant, whose
spans overlap (see the counterexample). Hypothesis `hseg`: when the
plain variant takes its synthesized-interval branch, the segment size is
positive (for segment size 0 the JS loop does not terminate, so the
model is only claimed away from it). -/
theorem pixel_sort_spec (I : ℚ) (row : List RGBA)
    (_hseg : detectIntervals (thrPlain I) 5 row = [] → 30 < I →
      0 < segPlain row.length I) :
    chainFrom 0 (plainIntervals I row) ∧
    (∀ se ∈ plainIntervals I row,
      rowSlice (processRowPlain I row) se.1 se.2 =
        sortAsc (rowSlice row se.1 se.2) ∧
      (rowSlice (processRowPlain I row) se.1 se.2).Perm
        (rowSlice row se.1 se.2)) ∧
    (processRowPlain I row).Perm row ∧
    (processRowEye I row).Perm row ∧
    (∀ l : List RGBA,
      (sortAsc l).Pairwise (fun p q => bright p ≤ bright q)) ∧
    (∀ l : List RGBA, (sortAsc l).Perm l) ∧
    (∀ (l : List RGBA) (q : ℚ),
      (sortAsc l).filter (fun p => decide (bright p = q)) =
        l.filter (fun p => decide (bright p = q))) ∧
    (∀ l : List RGBA, sortAsc (sortAsc l) = sortAsc l) := by
  obtain ⟨hch, hbnd⟩ := plainIntervals_spec I row
  refine ⟨hch, ?_, foldl_applyInterval_perm _ _, foldl_applyInterval_perm _ _,
    fun l => insSortK_pairwise bright l, fun l => insSortK_perm bright l,
    fun l q => insSortK_stable bright l q,
    fun l => insSortK_sorted_id bright (insSortK_pairwise bright l)⟩
  intro se hse
  have h := foldl_applyInterval_sorted (plainIntervals I row) row hch hbnd se hse
  rw [processRowPlain]
  exact ⟨h, h ▸ insSortK_perm bright _⟩

/-- Witness for `pixel_sort_spec` at intensity 50 over the concrete
row `rowCx` (synthesized segment size `⌊14·50/200⌋ = 3 > 0`). -/
theorem pixel_sort_spec_witness :
    (processRowPlain 50 rowCx).Perm rowCx ∧
    (processRowEye 50 rowCx).Perm rowCx := by
  have h := pixel_sort_spec 50 rowCx (fun _ _ => by norm_num [segPlain, rowCx])
  exact ⟨h.2.2.1, h.2.2.2.1⟩

/-- C4 counterexample. In the eye variant at intensity 50 over the
14-pixel row `rowCx` (eight bright pixels then six dark ones), the
selected spans are `[(0,13), (8,13), (0,13)]` — the segment spans
overlap each other and the brightness span. Span `(8,13)` is among the
selected spans, yet after the transform the pixels at positions 8–13
are the six brightest of the whole row, not a permutation of the six
dark pixels that were there: the multiset within that span is not
preserved. -/
theorem eye_span_counterexample :
    (8, 13) ∈ eyeIntervals 50 rowCx ∧
    ¬ (rowSlice (processRowEye 50 rowCx) 8 13).Perm (rowSlice rowCx 8 13) := by
  have hseg : segEye rowCx.length 50 = 8 := by
    norm_num [segEye, rowCx]
  have hsegs : segIntervalsEye 14 8 = [(0, 13), (8, 13)] := by decide
  have hdet : detectIntervals (thrEye 50) 3 rowCx = [(0, 13)] := by
    norm_num [detectIntervals, detectGo, rowCx, bright, thrEye]
  have heyei : eyeIntervals 50 rowCx = [(0, 13), (8, 13), (0, 13)] := by
    rw [eyeIntervals, hseg, show rowCx.length = 14 from rfl, hsegs, hdet]
    rfl
  have hfold : processRowEye 50 rowCx =
      ([⟨1, 1, 1, 255⟩, ⟨1, 1, 1, 255⟩, ⟨1, 1, 1, 255⟩, ⟨1, 1, 1, 255⟩,
        ⟨1, 1, 1, 255⟩, ⟨1, 1, 1, 255⟩, ⟨9, 9, 9, 255⟩, ⟨9, 9, 9, 255⟩,
        ⟨9, 9, 9, 255⟩, ⟨9, 9, 9, 255⟩, ⟨9, 9, 9, 255⟩, ⟨9, 9, 9, 255⟩,
        ⟨9, 9, 9, 255⟩, ⟨9, 9, 9, 255⟩] : List RGBA) := by
    rw [processRowEye, heyei]
    norm_num [applyInterval, rowSlice, sortAsc, insSortK, insertK, bright,
      rowCx]
  refine ⟨by rw [heyei]; simp, ?_⟩
  rw [hfold]
  decide

theorem rEven_bounds {q : ℚ} {m M : ℤ} (hm : (m : ℚ) ≤ q) (hM : q ≤ (M : ℚ)) :
    m ≤ rEven q ∧ rEven q ≤ M := by
  have hfm : m ≤ ⌊q⌋ := Int.le_floor.mpr hm
  have hfM : ⌊q⌋ ≤ M := by
    have h := Int.floor_le_floor hM
    rwa [Int.floor_intCast] at h
  have hstep : ¬ (q - ⌊q⌋ < 1/2) → ⌊q⌋ + 1 ≤ M := by
    intro h
    push_neg at h
    have h3 : ((⌊q⌋ : ℤ) : ℚ) < (M : ℚ) := by linarith
    exact Int.add_one_le_iff.mpr (by exact_mod_cast h3)
  simp only [rEven]
  split_ifs with h1 h2 h3
  · exact ⟨hfm, hfM⟩
  · exact ⟨by omega, hstep h1⟩
  · exact ⟨hfm, hfM⟩
  · exact ⟨by omega, hstep h1⟩

theorem rEven_intCast (n : ℤ) : rEven ((n : ℤ) : ℚ) = n := by
  simp only [rEven, Int.floor_intCast, sub_self]
  rw [if_pos (by norm_num : (0 : ℚ) < 1/2)]

theorem storeU8_le_255 (q : ℚ) : storeU8 q ≤ 255 := by
  rw [storeU8]
  omega

theorem storeU8_bounds {q : ℚ} {lo hi : ℕ} (hhi : hi ≤ 255)
    (hm : (lo : ℚ) ≤ q) (hM : q ≤ (hi : ℚ)) :
    lo ≤ storeU8 q ∧ storeU8 q ≤ hi := by
  obtain ⟨h1, h2⟩ := rEven_bounds (m := (lo : ℤ)) (M := (hi : ℤ))
    (by exact_mod_cast hm) (by exact_mod_cast hM)
  rw [storeU8]
  omega

theorem storeU8_natCast {v : ℕ} (hv : v ≤ 255) : storeU8 ((v : ℕ) : ℚ) = v := by
  have h : ((v : ℕ) : ℚ) = (((v : ℕ) : ℤ) : ℚ) := by push_cast; ring
  rw [storeU8, h, rEven_intCast]
  omega

theorem sum_bounds_of_mem {lo hi : ℕ} :
    ∀ (l : List ℕ), (∀ x ∈ l, lo ≤ x ∧ x ≤ hi) →
      lo * l.length ≤ l.sum ∧ l.sum ≤ hi * l.length := by
  intro l
  induction l with
  | nil => intro _; simp
  | cons x l ih =>
    intro hb
    obtain ⟨h1, h2⟩ := hb x (List.mem_cons_self _ _)
    obtain ⟨h3, h4⟩ := ih (fun y hy => hb y (List.mem_cons_of_mem _ hy))
    simp only [List.sum_cons, List.length_cons]
    constructor
    · calc lo * (l.length + 1) = lo + lo * l.length := by ring
        _ ≤ x + l.sum := by omega
    · calc x + l.sum ≤ hi + hi * l.length := by omega
        _ = hi * (l.length + 1) := by ring

theorem avgQ_bounds {lo hi : ℕ} {l : List ℕ} (hne : l ≠ [])
    (hb : ∀ x ∈ l, lo ≤ x ∧ x ≤ hi) :
    (lo : ℚ) ≤ avgQ l ∧ avgQ l ≤ (hi : ℚ) := by
  obtain ⟨h1, h2⟩ := sum_bounds_of_mem l hb
  have hlen : 0 < l.length := List.length_pos.mpr hne
  have hlenQ : (0 : ℚ) < (l.length : ℚ) := by exact_mod_cast hlen
  rw [avgQ]
  constructor
  · rw [le_div_iff₀ hlenQ]
    exact_mod_cast h1
  · rw [div_le_iff₀ hlenQ]
    exact_mod_cast h2

theorem avgQ_single (v : ℕ) : avgQ [v] = (v : ℚ) := by
  simp [avgQ]

theorem windowIdx_ne_nil (radius dim pos : ℕ) :
    windowIdx radius dim pos ≠ [] := by
  have h : (windowIdx radius dim pos).length = 2 * radius + 1 := by
    simp [windowIdx]
  exact List.length_pos.mp (by omega)

theorem mem_windowIdx_lt {radius dim pos : ℕ} (hdim : 0 < dim) :
    ∀ s ∈ windowIdx radius dim pos, s < dim := by
  intro s hs
  simp only [windowIdx, List.mem_map, List.mem_range] at hs
  obtain ⟨k, _, rfl⟩ := hs
  rw [sampleIdx]
  omega

theorem windowIdx_zero {dim pos : ℕ} (hpos : pos < dim) :
    windowIdx 0 dim pos = [pos] := by
  have h : List.range (2 * 0 + 1) = [0] := rfl
  rw [windowIdx, h, List.map_cons, List.map_nil]
  congr 1
  rw [sampleIdx]
  omega

theorem passH_ch {radius iw : ℕ} {f : Buf} {px py : ℕ} {ch : RGBA → ℕ}
    (hch : ch ∈ chans) :
    ch (passH radius iw f px py) =
      storeU8 (avgQ ((windowIdx radius iw px).map (fun s => ch (f s py)))) := by
  simp only [chans, List.mem_cons, List.not_mem_nil, or_false] at hch
  rcases hch with rfl | rfl | rfl | rfl <;> rfl

theorem passV_ch {radius ih : ℕ} {f : Buf} {px py : ℕ} {ch : RGBA → ℕ}
    (hch : ch ∈ chans) :
    ch (passV radius ih f px py) =
      storeU8 (avgQ ((windowIdx radius ih py).map (fun s => ch (f px s)))) := by
  simp only [chans, List.mem_cons, List.not_mem_nil, or_false] at hch
  rcases hch with rfl | rfl | rfl | rfl <;> rfl

theorem passH_window_bound {radius iw : ℕ} {f : Buf} {px py : ℕ}
    {lo hi : ℕ} {ch : RGBA → ℕ} (hch : ch ∈ chans) (hhi : hi ≤ 255)
    (hwin : ∀ s ∈ windowIdx radius iw px,
      lo ≤ ch (f s py) ∧ ch (f s py) ≤ hi) :
    lo ≤ ch (passH radius iw f px py) ∧ ch (passH radius iw f px py) ≤ hi := by
  rw [passH_ch hch]
  have hb : ∀ x ∈ (windowIdx radius iw px).map (fun s => ch (f s py)),
      lo ≤ x ∧ x ≤ hi := by
    intro x hx
    obtain ⟨s, hs, rfl⟩ := List.mem_map.mp hx
    exact hwin s hs
  obtain ⟨h1, h2⟩ := avgQ_bounds
    (by simpa using windowIdx_ne_nil radius iw px) hb
  exact storeU8_bounds hhi h1 h2

theorem passV_window_bound {radius ih : ℕ} {f : Buf} {px py : ℕ}
    {lo hi : ℕ} {ch : RGBA → ℕ} (hch : ch ∈ chans) (hhi : hi ≤ 255)
    (hwin : ∀ s ∈ windowIdx radius ih py,
      lo ≤ ch (f px s) ∧ ch (f px s) ≤ hi) :
    lo ≤ ch (passV radius ih f px py) ∧ ch (passV radius ih f px py) ≤ hi := by
  rw [passV_ch hch]
  have hb : ∀ x ∈ (windowIdx radius ih py).map (fun s => ch (f px s)),
      lo ≤ x ∧ x ≤ hi := by
    intro x hx
    obtain ⟨s, hs, rfl⟩ := List.mem_map.mp hx
    exact hwin s hs
  obtain ⟨h1, h2⟩ := avgQ_bounds
    (by simpa using windowIdx_ne_nil radius ih py) hb
  exact storeU8_bounds hhi h1 h2

theorem blurPass_bounds (radius : ℕ) {iw ih : ℕ} {f : Buf} {lo hi : ℕ}
    (hhi : hi ≤ 255) (hiw : 0 < iw) (hih : 0 < ih)
    (hb : ∀ ch ∈ chans, ∀ px, px < iw → ∀ py, py < ih →
      lo ≤ ch (f px py) ∧ ch (f px py) ≤ hi) :
    ∀ ch ∈ chans, ∀ px, px < iw → ∀ py, py < ih →
      lo ≤ ch (blurPass radius iw ih f px py) ∧
        ch (blurPass radius iw ih f px py) ≤ hi := by
  have hH : ∀ ch ∈ chans, ∀ px, px < iw → ∀ py, py < ih →
      lo ≤ ch (passH radius iw f px py) ∧ ch (passH radius iw f px py) ≤ hi := by
    intro ch hch px hpx py hpy
    refine passH_window_bound hch hhi ?_
    intro s hs
    exact hb ch hch s (mem_windowIdx_lt hiw s hs) py hpy
  intro ch hch px hpx py hpy
  rw [blurPass]
  refine passV_window_bound hch hhi ?_
  intro s hs
  exact hH ch hch px hpx s (mem_windowIdx_lt hih s hs)

theorem passH_zero {iw : ℕ} {f : Buf} {px py : ℕ} (hpx : px < iw)
    (hb : ∀ ch ∈ chans, ch (f px py) ≤ 255) :
    passH 0 iw f px py = f px py := by
  have hwin := windowIdx_zero hpx
  rcases hfp : f px py with ⟨r0, g0, b0, a0⟩
  have hr : (f px py).r = r0 := by rw [hfp]
  have hg : (f px py).g = g0 := by rw [hfp]
  have hbb : (f px py).b = b0 := by rw [hfp]
  have ha : (f px py).a = a0 := by rw [hfp]
  simp only [passH, hwin, List.map_cons, List.map_nil, hr, hg, hbb, ha,
    avgQ_single]
  have h255 : ∀ ch ∈ chans, ch (f px py) ≤ 255 := hb
  rw [storeU8_natCast (hr ▸ h255 RGBA.r (by simp [chans])),
    storeU8_natCast (hg ▸ h255 RGBA.g (by simp [chans])),
    storeU8_natCast (hbb ▸ h255 RGBA.b (by simp [chans])),
    storeU8_natCast (ha ▸ h255 RGBA.a (by simp [chans]))]

theorem passV_zero {ih : ℕ} {f : Buf} {px py : ℕ} (hpy : py < ih)
    (hb : ∀ ch ∈ chans, ch (f px py) ≤ 255) :
    passV 0 ih f px py = f px py := by
  have hwin := windowIdx_zero hpy
  rcases hfp : f px py with ⟨r0, g0, b0, a0⟩
  have hr : (f px py).r = r0 := by rw [hfp]
  have hg : (f px py).g = g0 := by rw [hfp]
  have hbb : (f px py).b = b0 := by rw [hfp]
  have ha : (f px py).a = a0 := by rw [hfp]
  simp only [passV, hwin, List.map_cons, List.map_nil, hr, hg, hbb, ha,
    avgQ_single]
  rw [storeU8_natCast (hr ▸ hb RGBA.r (by simp [chans])),
    storeU8_natCast (hg ▸ hb RGBA.g (by simp [chans])),
    storeU8_natCast (hbb ▸ hb RGBA.b (by simp [chans])),
    storeU8_natCast (ha ▸ hb RGBA.a (by simp [chans]))]

theorem blurPass_zero {iw ih : ℕ} {f : Buf} (hiw : 0 < iw) (hih : 0 < ih)
    (hb : ∀ ch ∈ chans, ∀ qx, qx < iw → ∀ qy, qy < ih → ch (f qx qy) ≤ 255) :
    ∀ px, px < iw → ∀ py, py < ih → blurPass 0 iw ih f px py = f px py := by
  intro px hpx py hpy
  rw [blurPass]
  have hH255 : ∀ ch ∈ chans, ch (passH 0 iw f px py) ≤ 255 := by
    intro ch hch
    rw [passH_ch hch]
    exact storeU8_le_255 _
  have hV : passV 0 ih (passH 0 iw f) px py = passH 0 iw f px py :=
    passV_zero hpy hH255
  rw [hV]
  exact passH_zero hpx (fun ch hch => hb ch hch px hpx py hpy)

theorem blur3_zero {iw ih : ℕ} {f : Buf} (hiw : 0 < iw) (hih : 0 < ih)
    (hb : ∀ ch ∈ chans, ∀ qx, qx < iw → ∀ qy, qy < ih → ch (f qx qy) ≤ 255) :
    ∀ px, px < iw → ∀ py, py < ih → blur3 0 iw ih f px py = f px py := by
  have h1 := blurPass_zero hiw hih hb
  have hb1 : ∀ ch ∈ chans, ∀ qx, qx < iw → ∀ qy, qy < ih →
      ch (blurPass 0 iw ih f qx qy) ≤ 255 := by
    intro ch hch qx hqx qy hqy
    rw [h1 qx hqx qy hqy]
    exact hb ch hch qx hqx qy hqy
  have h2 := blurPass_zero hiw hih hb1
  have hb2 : ∀ ch ∈ chans, ∀ qx, qx < iw → ∀ qy, qy < ih →
      ch (blurPass 0 iw ih (blurPass 0 iw ih f) qx qy) ≤ 255 := by
    intro ch hch qx hqx qy hqy
    rw [h2 qx hqx qy hqy, h1 qx hqx qy hqy]
    exact hb ch hch qx hqx qy hqy
  have h3 := blurPass_zero hiw hih hb2
  intro px hpx py hpy
  rw [blur3, h3 px hpx py hpy, h2 px hpx py hpy, h1 px hpx py hpy]

/-- C5. `blurRegion` (three repeated passes of a separable 1D box blur,
horizontal then vertical, each pass reading the pre-pass snapshot) never
overshoots: (1) sampling is edge-replicated — the sample index is
clamped into `[0, dim−1]`, not wrapped; (2) each single-pass output
channel value lies within any `[lo, hi]` bounding the values of its
clamped sample window; (3) every channel value of the full 3-pass blur
stays within any `[lo, hi]` (with `hi ≤ 255`) bounding the input region;
(4) with radius 0 the output buffer is bit-identical to the input on the
whole region. -/
theorem blur_spec (radius iw ih : ℕ) (f : Buf) (lo hi : ℕ)
    (hiw : 0 < iw) (hih : 0 < ih) (hhi : hi ≤ 255)
    (hb : ∀ ch ∈ chans, ∀ px, px < iw → ∀ py, py < ih →
      lo ≤ ch (f px py) ∧ ch (f px py) ≤ hi) :
    (∀ dim : ℕ, 0 < dim → ∀ i : ℤ,
      sampleIdx dim i =
        if i < 0 then 0
        else if (dim : ℤ) ≤ i then dim - 1 else i.toNat) ∧
    (∀ ch ∈ chans, ∀ px py,
      (∀ s ∈ windowIdx radius iw px,
        lo ≤ ch (f s py) ∧ ch (f s py) ≤ hi) →
      lo ≤ ch (passH radius iw f px py) ∧
        ch (passH radius iw f px py) ≤ hi) ∧
    (∀ ch ∈ chans, ∀ px, px < iw → ∀ py, py < ih →
      lo ≤ ch (blur3 radius iw ih f px py) ∧
        ch (blur3 radius iw ih f px py) ≤ hi) ∧
    (radius = 0 → ∀ px, px < iw → ∀ py, py < ih →
      blur3 radius iw ih f px py = f px py) := by
  refine ⟨?_, ?_, ?_, ?_⟩
  · intro dim hdim i
    rw [sampleIdx]
    split_ifs <;> omega
  · intro ch hch px py hwin
    exact passH_window_bound hch hhi hwin
  · have h1 := blurPass_bounds radius hhi hiw hih hb
    have h2 := blurPass_bounds radius hhi hiw hih h1
    have h3 := blurPass_bounds radius hhi hiw hih h2
    intro ch hch px hpx py hpy
    exact h3 ch hch px hpx py hpy
  · intro hr px hpx py hpy
    subst hr
    exact blur3_zero hiw hih
      (fun ch hch qx hqx qy hqy => (hb ch hch qx hqx qy hqy).2.trans hhi)
      px hpx py hpy

/-- Witness for `blur_spec` on a constant 2×2 buffer: the radius-1 blur
stays within bounds at `(0, 0)` and the radius-0 blur is the identity
there. -/
theorem blur_spec_witness :
    ((blur3 1 2 2 gW 0 0).r ≤ 255 ∧ 10 ≤ (blur3 1 2 2 gW 0 0).r) ∧
    blur3 0 2 2 gW 0 0 = gW 0 0 := by
  have hb : ∀ ch ∈ chans, ∀ px, px < 2 → ∀ py, py < 2 →
      10 ≤ ch (gW px py) ∧ ch (gW px py) ≤ 255 := by
    intro ch hch px _ py _
    simp only [chans, List.mem_cons, List.not_mem_nil, or_false] at hch
    rcases hch with rfl | rfl | rfl | rfl <;> simp [gW]
  have h1 := (blur_spec 1 2 2 gW 10 255 (by norm_num) (by norm_num)
    (le_refl 255) hb).2.2.1 RGBA.r (by simp [chans]) 0 (by norm_num) 0
    (by norm_num)
  have h2 := (blur_spec 0 2 2 gW 10 255 (by norm_num) (by norm_num)
    (le_refl 255) hb).2.2.2 rfl 0 (by norm_num) 0 (by norm_num)
  exact ⟨⟨h1.2, h1.1⟩, h2⟩
